import Mathlib

set_option maxRecDepth 10000

/-
Verification development for the `restaurant_booking` Anchor program
(src/pages/solana-code.rs).

Shallow embedding:

* `Pubkey` is a natural number below 2^256 (a 32-byte identity).
* Account addresses (`Addr`) carry the seed namespace of the program's PDAs
  (`"user-stats"`, `"dish-stats"`, `"review"`); `Addr.external` stands for any
  other address.  Seed derivation is deterministic and collision-free, which
  the inductive constructors model directly.
* The ledger maps addresses to raw account data (lists of byte values), as the
  host chain does.  The three record types are stored in the fixed
  little-endian layout documented in the spec (section 6) and produced by the
  program's borsh serialization: an 8-byte account discriminator followed by
  the fields in declaration order.
* Each instruction handler is embedded twice: a typed core mirroring the Rust
  handler body line by line, and a ledger-level operation that adds the
  account (de)serialization and the `init` / `init_if_needed` / `mut` account
  constraints declared in the corresponding `#[derive(Accounts)]` struct.
  Following the spec (sections 4.4 and 7), `book_table` persists the
  `visit_count` increment before the batch loop, and the loop commits its
  write-back per iteration with no rollback of earlier iterations.
* u64 / u32 / u8 arithmetic is modelled on Nat with explicit `% 2 ^ 64`
  (etc.) where the code can overflow (release-mode wrapping semantics).
-/

namespace RestaurantBooking

/-- Pubkeys are 32-byte identities, modelled as naturals below `2 ^ 256`. -/
abbrev Pubkey := Nat

/-- The `UserStats` account type (`#[account] pub struct UserStats`). -/
structure UserStats where
  user : Pubkey
  restaurant : Pubkey
  visit_count : Nat
  deriving Repr, DecidableEq

/-- The `DishStats` account type (`#[account] pub struct DishStats`). -/
structure DishStats where
  user : Pubkey
  dish : Pubkey
  count : Nat
  name_len : Nat
  name_data : List Nat
  deriving Repr, DecidableEq

/-- The `Review` account type (`#[account] pub struct Review`). -/
structure Review where
  user : Pubkey
  restaurant : Pubkey
  rating : Nat
  review_len : Nat
  review_data : List Nat
  confidence_level : Nat
  deriving Repr, DecidableEq

/-- Errors surfaced by the program: the three `#[error_code]` variants of the
source plus the host/framework-level errors named by the spec (section 6) and
by Anchor's account deserialization. -/
inductive ErrorCode where
  | InvalidRating
  | ReviewAlreadyExists
  | InvalidConfidenceLevel
  | AlreadyInUse
  | NotFound
  | AccountDiscriminatorNotFound
  | AccountDiscriminatorMismatch
  | AccountDidNotDeserialize
  | AccountDidNotSerialize
  deriving Repr, DecidableEq

/-- Decidable equality for `Except` results, used to evaluate the embedding
on concrete inputs. -/
instance exceptDecEq {ε α : Type} [DecidableEq ε] [DecidableEq α] :
    DecidableEq (Except ε α)
  | .error e, .error e' =>
    if h : e = e' then .isTrue (by rw [h]) else .isFalse fun hc => h (Except.error.inj hc)
  | .error _, .ok _ => .isFalse Except.noConfusion
  | .ok _, .error _ => .isFalse Except.noConfusion
  | .ok a, .ok b =>
    if h : a = b then .isTrue (by rw [h]) else .isFalse fun hc => h (Except.ok.inj hc)

/-- Deterministic account addresses.  The three PDA namespaces of the program
(`seeds = [b"user-stats", user, restaurant]`, `[b"dish-stats", user, dish]`,
`[b"review", user, restaurant]`) are disjoint and injective in their seeds,
which the constructors model; `external` is any other account address. -/
inductive Addr where
  | userStatsAddr (user restaurant : Pubkey)
  | dishStatsAddr (user dish : Pubkey)
  | reviewAddr (user restaurant : Pubkey)
  | external (k : Nat)
  deriving Repr, DecidableEq

/-- The ledger: raw account data per address (`none` = account absent). -/
def Ledger := Addr → Option (List Nat)

/-- The empty ledger. -/
def emptyLedger : Ledger := fun _ => none

/-- Overwrite the data stored at one address. -/
def writeAcct (L : Ledger) (a : Addr) (d : List Nat) : Ledger :=
  fun a' => if a' = a then some d else L a'

/-! ### Little-endian byte encoding (borsh integer layout) -/

/-- Encode `n` as `k` little-endian bytes (borsh layout for `u8`/`u32`/`u64`
and for 32-byte pubkeys). -/
def leEncode : Nat → Nat → List Nat
  | 0, _ => []
  | k + 1, n => n % 256 :: leEncode k (n / 256)

/-- Decode a little-endian byte list. -/
def leDecode : List Nat → Nat
  | [] => 0
  | b :: bs => b + 256 * leDecode bs

/-! ### Account discriminators

Anchor prepends `sha256("account:<TypeName>")[0..8]` to every account's data.
The three constants below are those hashes for `UserStats`, `DishStats` and
`Review`; all that matters for the program's behavior is that they are fixed
8-byte tags distinct from one another. -/

def USER_DISC : List Nat := [176, 223, 136, 27, 122, 79, 32, 227]

def DISH_DISC : List Nat := [35, 255, 109, 178, 78, 17, 114, 4]

def REVIEW_DISC : List Nat := [124, 63, 203, 215, 226, 30, 222, 15]

/-! ### Account (de)serialization

`ser*` is Anchor's `try_serialize` for each `#[account]` type: the 8-byte
discriminator followed by the borsh encoding of the fields in declaration
order.  `deser*` is `try_deserialize`: check the discriminator, then read the
fields sequentially (trailing bytes are ignored, as borsh `deserialize` from a
reader does); the byte layouts match the spec, section 6. -/

def serUserStats (s : UserStats) : List Nat :=
  USER_DISC ++ leEncode 32 s.user ++ leEncode 32 s.restaurant ++ leEncode 8 s.visit_count

def serDishStats (s : DishStats) : List Nat :=
  DISH_DISC ++ leEncode 32 s.user ++ leEncode 32 s.dish ++ leEncode 8 s.count ++
    leEncode 4 s.name_len ++ s.name_data

def serReview (s : Review) : List Nat :=
  REVIEW_DISC ++ leEncode 32 s.user ++ leEncode 32 s.restaurant ++ leEncode 1 s.rating ++
    leEncode 4 s.review_len ++ s.review_data ++ leEncode 1 s.confidence_level

def deserUserStats (data : List Nat) : Except ErrorCode UserStats :=
  if data.length < 8 then .error .AccountDiscriminatorNotFound
  else if data.take 8 = USER_DISC then
    if (data.drop 8).length < 72 then .error .AccountDidNotDeserialize
    else .ok ⟨leDecode ((data.drop 8).take 32),
              leDecode (((data.drop 8).drop 32).take 32),
              leDecode ((((data.drop 8).drop 32).drop 32).take 8)⟩
  else .error .AccountDiscriminatorMismatch

def deserDishStats (data : List Nat) : Except ErrorCode DishStats :=
  if data.length < 8 then .error .AccountDiscriminatorNotFound
  else if data.take 8 = DISH_DISC then
    if (data.drop 8).length < 126 then .error .AccountDidNotDeserialize
    else .ok ⟨leDecode ((data.drop 8).take 32),
              leDecode (((data.drop 8).drop 32).take 32),
              leDecode ((((data.drop 8).drop 32).drop 32).take 8),
              leDecode (((((data.drop 8).drop 32).drop 32).drop 8).take 4),
              ((((((data.drop 8).drop 32).drop 32).drop 8).drop 4).take 50)⟩
  else .error .AccountDiscriminatorMismatch

def deserReview (data : List Nat) : Except ErrorCode Review :=
  if data.length < 8 then .error .AccountDiscriminatorNotFound
  else if data.take 8 = REVIEW_DISC then
    if (data.drop 8).length < 270 then .error .AccountDidNotDeserialize
    else .ok ⟨leDecode ((data.drop 8).take 32),
              leDecode (((data.drop 8).drop 32).take 32),
              leDecode ((((data.drop 8).drop 32).drop 32).take 1),
              leDecode (((((data.drop 8).drop 32).drop 32).drop 1).take 4),
              ((((((data.drop 8).drop 32).drop 32).drop 1).drop 4).take 200),
              leDecode (((((((data.drop 8).drop 32).drop 32).drop 1).drop 4).drop 200).take 1)⟩
  else .error .AccountDiscriminatorMismatch

/-! ### Facts about successful deserialization -/

/-! ### Instruction handlers (typed cores)

Each `*_core` function mirrors the body of the corresponding handler in
`#[program] pub mod restaurant_booking` line by line. -/

/-- Core of the user-stats init handler: set `user`, `restaurant`, and
`visit_count = 0` on the freshly created account. -/
def init_user_stats_core (user restaurant : Pubkey) : UserStats :=
  { user := user, restaurant := restaurant, visit_count := 0 }

/-- Core of the dish-stats init handler: set the keys, zero the counter, and
copy `min (name.length) 50` bytes of the name into the zero-filled fixed
buffer, recording the truncated length, exactly as
`stats.name_data[..name_len].copy_from_slice(&name_bytes[..name_len])` does. -/
def init_dish_stats_core (user dish : Pubkey) (name : List Nat) : DishStats :=
  { user := user, dish := dish, count := 0,
    name_len := min name.length 50,
    name_data := name.take (min name.length 50) ++
      List.replicate (50 - min name.length 50) 0 }

/-- Core of `pub fn submit_review`: the two `require!` validations in source
order, the write-once guard on `review_len`, then every field written, with
the review text truncated to 200 bytes into a zero-filled buffer. -/
def submit_review_core (review_account : Review) (user restaurant : Pubkey)
    (rating : Nat) (review : List Nat) (confidence_level : Nat) :
    Except ErrorCode Review :=
  if 1 ≤ rating ∧ rating ≤ 5 then
    if 1 ≤ confidence_level ∧ confidence_level ≤ 10 then
      if 0 < review_account.review_len then .error .ReviewAlreadyExists
      else
        .ok { user := user, restaurant := restaurant, rating := rating,
              review_len := min review.length 200,
              review_data := review.take (min review.length 200) ++
                List.replicate (200 - min review.length 200) 0,
              confidence_level := confidence_level }
    else .error .InvalidConfidenceLevel
  else .error .InvalidRating

/-! ### The `book_table` batch loop -/

/-- The Rust iterator `(0..len).step_by(2)` of `book_table`'s loop. -/
def stepIndices (len : Nat) : List Nat :=
  (List.range len).filter (fun i => i % 2 = 0)

/-- The address at position `i` of `remaining_accounts`. -/
def idxAddr (aux : List Addr) (i : Nat) : Addr :=
  aux.getD i (.external 0)

/-- One auxiliary account update of the loop body: deserialize the account's
data as `DishStats`, increment `count` (u64, wrapping), and serialize the
record back over the front of the buffer (the `std::io::Cursor` write); bytes
past the serialized record are untouched, and a buffer too short for the
record fails the write. -/
def processDish (data : List Nat) : Except ErrorCode (List Nat) :=
  match deserDishStats data with
  | .error e => .error e
  | .ok ds =>
    if data.length < (serDishStats { ds with count := (ds.count + 1) % 2 ^ 64 }).length
    then .error .AccountDidNotSerialize
    else .ok (serDishStats { ds with count := (ds.count + 1) % 2 ^ 64 } ++
      data.drop (serDishStats { ds with count := (ds.count + 1) % 2 ^ 64 }).length)

/-- Body of one loop iteration after the bounds guard: index into
`remaining_accounts`, run `processDish` on that account's data, and write the
result back; an error aborts the instruction. -/
def bookTableStepBody (L : Ledger) (aux : List Addr) (i : Nat) :
    Ledger × Option ErrorCode :=
  match processDish ((L (idxAddr aux i)).getD []) with
  | .error e => (L, some e)
  | .ok d' => (writeAcct L (idxAddr aux i) d', none)

/-- One loop iteration of `book_table`, including the (dead) bounds guard
`if i >= ctx.remaining_accounts.len() { continue; }`. -/
def bookTableStep (L : Ledger) (aux : List Addr) (i : Nat) :
    Ledger × Option ErrorCode :=
  if aux.length ≤ i then (L, none) else bookTableStepBody L aux i

/-- Run the loop over an index list.  A failing iteration stops the loop and
surfaces its error; earlier iterations' writes stay committed (spec,
sections 4.4 and 7). -/
def runLoop (L : Ledger) (aux : List Addr) : List Nat → Ledger × Option ErrorCode
  | [] => (L, none)
  | i :: is =>
    match bookTableStep L aux i with
    | (L', some e) => (L', some e)
    | (L', none) => runLoop L' aux is

/-! ### Ledger-level operations

Each `*_op` wraps a handler core with the account constraints declared in its
`#[derive(Accounts)]` struct and the host's record-store semantics (spec,
sections 4.1 and 6): `init` fails on an occupied address, `init_if_needed`
loads or zero-creates, and a failed instruction commits nothing — except for
`book_table`'s loop, whose per-iteration commits are kept (spec, section
4.4). -/

/-- `InitializeUserStats`: `#[account(init, seeds = [b"user-stats", user,
restaurant])]` fails when the address is occupied, else the handler's record
is created with `visit_count = 0`. -/
def init_user_stats_op (L : Ledger) (user restaurant : Pubkey) :
    Ledger × Option ErrorCode :=
  match L (.userStatsAddr user restaurant) with
  | some _ => (L, some .AlreadyInUse)
  | none =>
    (writeAcct L (.userStatsAddr user restaurant)
      (serUserStats (init_user_stats_core user restaurant)), none)

/-- `InitializeDishStats`: `#[account(init, seeds = [b"dish-stats", user,
dish])]` fails when the address is occupied, else the handler's record is
created. -/
def init_dish_stats_op (L : Ledger) (user dish : Pubkey) (name : List Nat) :
    Ledger × Option ErrorCode :=
  match L (.dishStatsAddr user dish) with
  | some _ => (L, some .AlreadyInUse)
  | none =>
    (writeAcct L (.dishStatsAddr user dish)
      (serDishStats (init_dish_stats_core user dish name)), none)

/-- `SubmitReview`: `init_if_needed` loads the existing record (or presents a
zeroed one for a fresh account) before the handler runs; on any error nothing
is committed. -/
def submit_review_op (L : Ledger) (user restaurant : Pubkey) (rating : Nat)
    (review : List Nat) (confidence_level : Nat) : Ledger × Option ErrorCode :=
  match
    (match L (.reviewAddr user restaurant) with
     | none => Except.ok (⟨0, 0, 0, 0, List.replicate 200 0, 0⟩ : Review)
     | some d => deserReview d) with
  | .error e => (L, some e)
  | .ok acct =>
    match submit_review_core acct user restaurant rating review confidence_level with
    | .error e => (L, some e)
    | .ok r' => (writeAcct L (.reviewAddr user restaurant) (serReview r'), none)

/-- `BookTable`: load the `UserStats` PDA (failing with `NotFound` when
absent), increment `visit_count` (u64, wrapping) and persist it (spec,
section 4.4 step 1), then run the batch loop over the caller-supplied
`remaining_accounts`.  `dish_ids` is the handler's `_dish_ids` argument,
which the body never reads. -/
def book_table_op (L : Ledger) (user restaurant : Pubkey)
    (dish_ids : List Pubkey) (aux : List Addr) : Ledger × Option ErrorCode :=
  match L (.userStatsAddr user restaurant) with
  | none => (L, some .NotFound)
  | some d =>
    match deserUserStats d with
    | .error e => (L, some e)
    | .ok us =>
      runLoop
        (writeAcct L (.userStatsAddr user restaurant)
          (serUserStats { us with visit_count := (us.visit_count + 1) % 2 ^ 64 }))
        aux (stepIndices aux.length)

/-! ### Readers and the transition system -/

/-- Parse the `UserStats` record stored at its PDA. -/
def readUserStats (L : Ledger) (user restaurant : Pubkey) : Option UserStats :=
  (deserUserStats ((L (.userStatsAddr user restaurant)).getD [])).toOption

/-- Parse the `DishStats` record stored at its PDA. -/
def readDishStats (L : Ledger) (user dish : Pubkey) : Option DishStats :=
  (deserDishStats ((L (.dishStatsAddr user dish)).getD [])).toOption

/-- Parse the `Review` record stored at its PDA. -/
def readReview (L : Ledger) (user restaurant : Pubkey) : Option Review :=
  (deserReview ((L (.reviewAddr user restaurant)).getD [])).toOption

/-- The `visit_count` stored at an address, when its data parses as
`UserStats`. -/
def visitCountAt (L : Ledger) (a : Addr) : Option Nat :=
  (deserUserStats ((L a).getD [])).toOption.map UserStats.visit_count

/-- The `count` stored at an address, when its data parses as `DishStats`. -/
def dishCountAt (L : Ledger) (a : Addr) : Option Nat :=
  (deserDishStats ((L a).getD [])).toOption.map DishStats.count

/-- Addresses referenced at even positions of `remaining_accounts`, in loop
order. -/
def evenAddrs (aux : List Addr) : List Addr :=
  (stepIndices aux.length).map (idxAddr aux)

/-- Decidable test that account data deserializes as `DishStats`. -/
def dishOk (data : List Nat) : Bool :=
  match deserDishStats data with
  | .ok _ => true
  | .error _ => false

/-- One instruction invocation with its arguments. -/
inductive Op where
  | initUser (user restaurant : Pubkey)
  | initDish (user dish : Pubkey) (name : List Nat)
  | bookTable (user restaurant : Pubkey) (dish_ids : List Pubkey) (aux : List Addr)
  | submitReview (user restaurant : Pubkey) (rating : Nat) (review : List Nat)
      (confidence_level : Nat)

/-- Apply one instruction to the ledger. -/
def applyOp (L : Ledger) : Op → Ledger × Option ErrorCode
  | .initUser u r => init_user_stats_op L u r
  | .initDish u d name => init_dish_stats_op L u d name
  | .bookTable u r ids aux => book_table_op L u r ids aux
  | .submitReview u r rating review conf => submit_review_op L u r rating review conf

/-- Well-typed arguments: pubkeys are 32 bytes, strings arrive as byte
sequences, and `rating` / `confidence_level` are `u8` values. -/
def OpWF : Op → Prop
  | .initUser u r => u < 2 ^ 256 ∧ r < 2 ^ 256
  | .initDish u d name => u < 2 ^ 256 ∧ d < 2 ^ 256 ∧ ∀ b ∈ name, b < 256
  | .bookTable u r _ _ => u < 2 ^ 256 ∧ r < 2 ^ 256
  | .submitReview u r rating review conf =>
      u < 2 ^ 256 ∧ r < 2 ^ 256 ∧ rating < 256 ∧ conf < 256 ∧ ∀ b ∈ review, b < 256

/-- Ledgers reachable from the empty ledger by well-typed instructions
(failed invocations included: they may leave the committed partial effects of
`book_table` described in the spec, section 4.4). -/
inductive Reachable : Ledger → Prop
  | empty : Reachable emptyLedger
  | step {L : Ledger} (op : Op) (hwf : OpWF op) (h : Reachable L) :
      Reachable (applyOp L op).1

/-- The effect of one successful `processDish` on the account's data
(`bumpData data = d'` whenever `processDish data = .ok d'`); on data that does
not parse it is the identity. -/
def bumpData (data : List Nat) : List Nat :=
  match deserDishStats data with
  | .error _ => data
  | .ok ds => serDishStats { ds with count := (ds.count + 1) % 2 ^ 64 } ++ data.drop 134

/-- Upper bound on how many increments one instruction can apply to any one
stored counter: none for the non-batch instructions; for BookTable, the
`visit_count` increment plus at most one `count` increment per auxiliary
reference. -/
def opBound : Op → Nat
  | .bookTable _ _ _ aux => aux.length + 1
  | _ => 0

/-- The ledger after `InitUserStats(0, 0)` followed by `n` successive
`BookTable(0, 0, [], [])` calls; exhibits the u64 wraparound of
`visit_count`. -/
def visitTrace : Nat → Ledger
  | 0 => (init_user_stats_op emptyLedger 0 0).1
  | n + 1 => (book_table_op (visitTrace n) 0 0 [] []).1

/-- Every byte stored on the ledger is an actual byte value. -/
def ByteLedger (L : Ledger) : Prop :=
  ∀ a d, L a = some d → ∀ b ∈ d, b < 256

/-- Every occupied review PDA holds data that parses as a `Review`. -/
def ReviewsParse (L : Ledger) : Prop :=
  ∀ u r d, L (.reviewAddr u r) = some d → ∃ rv, deserReview d = .ok rv

/-! ### Theorems -/

theorem writeAcct_same (L : Ledger) (a : Addr) (d : List Nat) :
    writeAcct L a d a = some d := by
  simp [writeAcct]

theorem writeAcct_other (L : Ledger) (a a' : Addr) (d : List Nat) (h : a' ≠ a) :
    writeAcct L a d a' = L a' := by
  simp [writeAcct, h]

theorem leEncode_length (k n : Nat) : (leEncode k n).length = k := by
  induction k generalizing n with
  | zero => rfl
  | succ k ih => simp [leEncode, ih]

theorem leEncode_bytes (k n : Nat) : ∀ b ∈ leEncode k n, b < 256 := by
  induction k generalizing n with
  | zero => simp [leEncode]
  | succ k ih =>
    intro b hb
    simp only [leEncode, List.mem_cons] at hb
    rcases hb with h | h
    · exact h ▸ Nat.mod_lt _ (by omega)
    · exact ih _ b h

theorem leDecode_leEncode (k n : Nat) : leDecode (leEncode k n) = n % 256 ^ k := by
  induction k generalizing n with
  | zero => simp [leEncode, leDecode, Nat.mod_one]
  | succ k ih =>
    simp only [leEncode, leDecode, ih]
    rw [pow_succ, mul_comm (256 ^ k) 256, Nat.mod_mul]

theorem leDecode_lt (bs : List Nat) (h : ∀ b ∈ bs, b < 256) :
    leDecode bs < 256 ^ bs.length := by
  induction bs with
  | nil => simp [leDecode]
  | cons b bs ih =>
    have hb : b < 256 := h b (List.mem_cons_self _ _)
    have ht : leDecode bs < 256 ^ bs.length := ih fun x hx => h x (List.mem_cons_of_mem _ hx)
    simp only [leDecode, List.length_cons, pow_succ]
    calc b + 256 * leDecode bs < 256 + 256 * leDecode bs := by omega
    _ = 256 * (leDecode bs + 1) := by ring
    _ ≤ 256 * 256 ^ bs.length := by
        exact Nat.mul_le_mul_left _ (by omega)
    _ = 256 ^ bs.length * 256 := by ring

theorem leDecode_leEncode_of_lt (k n : Nat) (h : n < 256 ^ k) :
    leDecode (leEncode k n) = n := by
  rw [leDecode_leEncode, Nat.mod_eq_of_lt h]

theorem pow256_32 : (256 : Nat) ^ 32 = 2 ^ 256 := by norm_num
theorem pow256_8 : (256 : Nat) ^ 8 = 2 ^ 64 := by norm_num
theorem pow256_4 : (256 : Nat) ^ 4 = 2 ^ 32 := by norm_num
theorem pow256_1 : (256 : Nat) ^ 1 = 2 ^ 8 := by norm_num

theorem USER_DISC_length : USER_DISC.length = 8 := by decide
theorem DISH_DISC_length : DISH_DISC.length = 8 := by decide
theorem REVIEW_DISC_length : REVIEW_DISC.length = 8 := by decide

theorem user_ne_dish_disc : USER_DISC ≠ DISH_DISC := by decide
theorem review_ne_dish_disc : REVIEW_DISC ≠ DISH_DISC := by decide

theorem serUserStats_length (s : UserStats) : (serUserStats s).length = 80 := by
  simp [serUserStats, List.length_append, leEncode_length, USER_DISC_length]

theorem serDishStats_length (s : DishStats) (h : s.name_data.length = 50) :
    (serDishStats s).length = 134 := by
  simp [serDishStats, List.length_append, leEncode_length, DISH_DISC_length, h]

theorem serReview_length (s : Review) (h : s.review_data.length = 200) :
    (serReview s).length = 278 := by
  simp [serReview, List.length_append, leEncode_length, REVIEW_DISC_length, h]

theorem deserUserStats_ser (u r v : Nat) (rest : List Nat)
    (hu : u < 2 ^ 256) (hr : r < 2 ^ 256) (hv : v < 2 ^ 64) :
    deserUserStats (serUserStats ⟨u, r, v⟩ ++ rest) = .ok ⟨u, r, v⟩ := by
  have h1 : leDecode (leEncode 32 u) = u :=
    leDecode_leEncode_of_lt _ _ (by rw [pow256_32]; exact hu)
  have h2 : leDecode (leEncode 32 r) = r :=
    leDecode_leEncode_of_lt _ _ (by rw [pow256_32]; exact hr)
  have h3 : leDecode (leEncode 8 v) = v :=
    leDecode_leEncode_of_lt _ _ (by rw [pow256_8]; exact hv)
  simp only [serUserStats, List.append_assoc, deserUserStats]
  rw [List.take_left' USER_DISC_length, List.drop_left' USER_DISC_length,
      List.take_left' (leEncode_length 32 u), List.drop_left' (leEncode_length 32 u),
      List.take_left' (leEncode_length 32 r), List.drop_left' (leEncode_length 32 r),
      List.take_left' (leEncode_length 8 v)]
  rw [if_neg (by
        simp only [List.length_append, leEncode_length, USER_DISC_length]; omega),
      if_pos rfl,
      if_neg (by
        simp only [List.length_append, leEncode_length]; omega)]
  rw [h1, h2, h3]

theorem deserDishStats_ser (u d c nl : Nat) (nd rest : List Nat)
    (hu : u < 2 ^ 256) (hd : d < 2 ^ 256) (hc : c < 2 ^ 64) (hnl : nl < 2 ^ 32)
    (hnd : nd.length = 50) :
    deserDishStats (serDishStats ⟨u, d, c, nl, nd⟩ ++ rest) = .ok ⟨u, d, c, nl, nd⟩ := by
  have h1 : leDecode (leEncode 32 u) = u :=
    leDecode_leEncode_of_lt _ _ (by rw [pow256_32]; exact hu)
  have h2 : leDecode (leEncode 32 d) = d :=
    leDecode_leEncode_of_lt _ _ (by rw [pow256_32]; exact hd)
  have h3 : leDecode (leEncode 8 c) = c :=
    leDecode_leEncode_of_lt _ _ (by rw [pow256_8]; exact hc)
  have h4 : leDecode (leEncode 4 nl) = nl :=
    leDecode_leEncode_of_lt _ _ (by rw [pow256_4]; exact hnl)
  simp only [serDishStats, List.append_assoc, deserDishStats]
  rw [List.take_left' DISH_DISC_length, List.drop_left' DISH_DISC_length,
      List.take_left' (leEncode_length 32 u), List.drop_left' (leEncode_length 32 u),
      List.take_left' (leEncode_length 32 d), List.drop_left' (leEncode_length 32 d),
      List.take_left' (leEncode_length 8 c), List.drop_left' (leEncode_length 8 c),
      List.take_left' (leEncode_length 4 nl), List.drop_left' (leEncode_length 4 nl),
      List.take_left' hnd]
  rw [if_neg (by
        simp only [List.length_append, leEncode_length, DISH_DISC_length]; omega),
      if_pos rfl,
      if_neg (by
        simp only [List.length_append, leEncode_length, hnd]; omega)]
  rw [h1, h2, h3, h4]

theorem deserReview_ser (u r rt rl cf : Nat) (rd rest : List Nat)
    (hu : u < 2 ^ 256) (hr : r < 2 ^ 256) (hrt : rt < 2 ^ 8) (hrl : rl < 2 ^ 32)
    (hcf : cf < 2 ^ 8) (hrd : rd.length = 200) :
    deserReview (serReview ⟨u, r, rt, rl, rd, cf⟩ ++ rest) = .ok ⟨u, r, rt, rl, rd, cf⟩ := by
  have h1 : leDecode (leEncode 32 u) = u :=
    leDecode_leEncode_of_lt _ _ (by rw [pow256_32]; exact hu)
  have h2 : leDecode (leEncode 32 r) = r :=
    leDecode_leEncode_of_lt _ _ (by rw [pow256_32]; exact hr)
  have h3 : leDecode (leEncode 1 rt) = rt :=
    leDecode_leEncode_of_lt _ _ (by rw [pow256_1]; exact hrt)
  have h4 : leDecode (leEncode 4 rl) = rl :=
    leDecode_leEncode_of_lt _ _ (by rw [pow256_4]; exact hrl)
  have h5 : leDecode (leEncode 1 cf) = cf :=
    leDecode_leEncode_of_lt _ _ (by rw [pow256_1]; exact hcf)
  simp only [serReview, List.append_assoc, deserReview]
  rw [List.take_left' REVIEW_DISC_length, List.drop_left' REVIEW_DISC_length,
      List.take_left' (leEncode_length 32 u), List.drop_left' (leEncode_length 32 u),
      List.take_left' (leEncode_length 32 r), List.drop_left' (leEncode_length 32 r),
      List.take_left' (leEncode_length 1 rt), List.drop_left' (leEncode_length 1 rt),
      List.take_left' (leEncode_length 4 rl), List.drop_left' (leEncode_length 4 rl),
      List.take_left' hrd, List.drop_left' hrd,
      List.take_left' (leEncode_length 1 cf)]
  rw [if_neg (by
        simp only [List.length_append, leEncode_length, REVIEW_DISC_length]; omega),
      if_pos rfl,
      if_neg (by
        simp only [List.length_append, leEncode_length, hrd]; omega)]
  rw [h1, h2, h3, h4, h5]

theorem bytes_take (l : List Nat) (n : Nat) (h : ∀ b ∈ l, b < 256) :
    ∀ b ∈ l.take n, b < 256 :=
  fun b hb => h b (List.take_subset n l hb)

theorem bytes_drop (l : List Nat) (n : Nat) (h : ∀ b ∈ l, b < 256) :
    ∀ b ∈ l.drop n, b < 256 :=
  fun b hb => h b (List.drop_subset n l hb)

theorem leDecode_slice_lt (l : List Nat) (k : Nat) (h : ∀ b ∈ l, b < 256)
    (hk : l.length ≤ k) : leDecode l < 256 ^ k :=
  lt_of_lt_of_le (leDecode_lt l h) (Nat.pow_le_pow_right (by omega) hk)

theorem leDecode_take_lt (l : List Nat) (k : Nat) (h : ∀ b ∈ l, b < 256) :
    leDecode (l.take k) < 256 ^ k :=
  leDecode_slice_lt _ k (bytes_take l k h)
    (by rw [List.length_take]; exact min_le_left _ _)

theorem deserUserStats_ok_shape (data : List Nat) (us : UserStats)
    (h : deserUserStats data = .ok us) :
    80 ≤ data.length ∧ data.take 8 = USER_DISC := by
  by_cases c1 : data.length < 8
  · simp [deserUserStats, c1] at h
  · by_cases c2 : data.take 8 = USER_DISC
    · by_cases c3 : (data.drop 8).length < 72
      · rw [List.length_drop] at c3
        simp [deserUserStats, c1, c2, c3] at h
      · have hd := List.length_drop 8 data
        exact ⟨by omega, c2⟩
    · simp [deserUserStats, c1, c2] at h

theorem deserUserStats_ok_elim (data : List Nat) (us : UserStats)
    (h : deserUserStats data = .ok us) :
    us = ⟨leDecode ((data.drop 8).take 32),
          leDecode (((data.drop 8).drop 32).take 32),
          leDecode ((((data.drop 8).drop 32).drop 32).take 8)⟩ := by
  by_cases c1 : data.length < 8
  · simp [deserUserStats, c1] at h
  · by_cases c2 : data.take 8 = USER_DISC
    · by_cases c3 : (data.drop 8).length < 72
      · rw [List.length_drop] at c3
        simp [deserUserStats, c1, c2, c3] at h
      · simp only [deserUserStats, if_neg c1, if_pos c2, if_neg c3,
          Except.ok.injEq] at h
        exact h.symm
    · simp [deserUserStats, c1, c2] at h

theorem deserUserStats_ok_bounds (data : List Nat) (us : UserStats)
    (hB : ∀ b ∈ data, b < 256) (h : deserUserStats data = .ok us) :
    us.user < 2 ^ 256 ∧ us.restaurant < 2 ^ 256 ∧ us.visit_count < 2 ^ 64 := by
  rw [deserUserStats_ok_elim data us h]
  refine ⟨?_, ?_, ?_⟩
  · rw [← pow256_32]
    exact leDecode_take_lt _ 32 (bytes_drop _ 8 hB)
  · rw [← pow256_32]
    exact leDecode_take_lt _ 32 (bytes_drop _ 32 (bytes_drop _ 8 hB))
  · rw [← pow256_8]
    exact leDecode_take_lt _ 8 (bytes_drop _ 32 (bytes_drop _ 32 (bytes_drop _ 8 hB)))

theorem deserDishStats_ok_shape (data : List Nat) (ds : DishStats)
    (h : deserDishStats data = .ok ds) :
    134 ≤ data.length ∧ data.take 8 = DISH_DISC ∧ ds.name_data.length = 50 := by
  by_cases c1 : data.length < 8
  · simp [deserDishStats, c1] at h
  · by_cases c2 : data.take 8 = DISH_DISC
    · by_cases c3 : (data.drop 8).length < 126
      · rw [List.length_drop] at c3
        simp [deserDishStats, c1, c2, c3] at h
      · have hd := List.length_drop 8 data
        refine ⟨by omega, c2, ?_⟩
        simp only [deserDishStats, if_neg c1, if_pos c2, if_neg c3,
          Except.ok.injEq] at h
        rw [← h]
        simp only [List.length_take, List.length_drop]
        omega
    · simp [deserDishStats, c1, c2] at h

theorem deserDishStats_ok_elim (data : List Nat) (ds : DishStats)
    (h : deserDishStats data = .ok ds) :
    ds = ⟨leDecode ((data.drop 8).take 32),
          leDecode (((data.drop 8).drop 32).take 32),
          leDecode ((((data.drop 8).drop 32).drop 32).take 8),
          leDecode (((((data.drop 8).drop 32).drop 32).drop 8).take 4),
          ((((((data.drop 8).drop 32).drop 32).drop 8).drop 4).take 50)⟩ := by
  by_cases c1 : data.length < 8
  · simp [deserDishStats, c1] at h
  · by_cases c2 : data.take 8 = DISH_DISC
    · by_cases c3 : (data.drop 8).length < 126
      · rw [List.length_drop] at c3
        simp [deserDishStats, c1, c2, c3] at h
      · simp only [deserDishStats, if_neg c1, if_pos c2, if_neg c3,
          Except.ok.injEq] at h
        exact h.symm
    · simp [deserDishStats, c1, c2] at h

theorem deserDishStats_ok_bounds (data : List Nat) (ds : DishStats)
    (hB : ∀ b ∈ data, b < 256) (h : deserDishStats data = .ok ds) :
    ds.user < 2 ^ 256 ∧ ds.dish < 2 ^ 256 ∧ ds.count < 2 ^ 64 ∧ ds.name_len < 2 ^ 32 ∧
      ∀ b ∈ ds.name_data, b < 256 := by
  rw [deserDishStats_ok_elim data ds h]
  refine ⟨?_, ?_, ?_, ?_, ?_⟩
  · rw [← pow256_32]
    exact leDecode_take_lt _ 32 (bytes_drop _ 8 hB)
  · rw [← pow256_32]
    exact leDecode_take_lt _ 32 (bytes_drop _ 32 (bytes_drop _ 8 hB))
  · rw [← pow256_8]
    exact leDecode_take_lt _ 8 (bytes_drop _ 32 (bytes_drop _ 32 (bytes_drop _ 8 hB)))
  · rw [← pow256_4]
    exact leDecode_take_lt _ 4
      (bytes_drop _ 8 (bytes_drop _ 32 (bytes_drop _ 32 (bytes_drop _ 8 hB))))
  · exact bytes_take _ 50
      (bytes_drop _ 4 (bytes_drop _ 8 (bytes_drop _ 32 (bytes_drop _ 32 (bytes_drop _ 8 hB)))))

theorem deserReview_ok_shape (data : List Nat) (rv : Review)
    (h : deserReview data = .ok rv) :
    278 ≤ data.length ∧ data.take 8 = REVIEW_DISC := by
  by_cases c1 : data.length < 8
  · simp [deserReview, c1] at h
  · by_cases c2 : data.take 8 = REVIEW_DISC
    · by_cases c3 : (data.drop 8).length < 270
      · rw [List.length_drop] at c3
        simp [deserReview, c1, c2, c3] at h
      · have hd := List.length_drop 8 data
        exact ⟨by omega, c2⟩
    · simp [deserReview, c1, c2] at h

theorem serUserStats_bytes (s : UserStats) : ∀ b ∈ serUserStats s, b < 256 := by
  intro b hb
  simp only [serUserStats, List.append_assoc, List.mem_append] at hb
  rcases hb with h | h | h | h
  · revert b h
    decide
  · exact leEncode_bytes _ _ b h
  · exact leEncode_bytes _ _ b h
  · exact leEncode_bytes _ _ b h

theorem serDishStats_bytes (s : DishStats) (hn : ∀ b ∈ s.name_data, b < 256) :
    ∀ b ∈ serDishStats s, b < 256 := by
  intro b hb
  simp only [serDishStats, List.append_assoc, List.mem_append] at hb
  rcases hb with h | h | h | h | h | h
  · revert b h
    decide
  · exact leEncode_bytes _ _ b h
  · exact leEncode_bytes _ _ b h
  · exact leEncode_bytes _ _ b h
  · exact leEncode_bytes _ _ b h
  · exact hn b h

theorem serReview_bytes (s : Review) (hr : ∀ b ∈ s.review_data, b < 256) :
    ∀ b ∈ serReview s, b < 256 := by
  intro b hb
  simp only [serReview, List.append_assoc, List.mem_append] at hb
  rcases hb with h | h | h | h | h | h | h
  · revert b h
    decide
  · exact leEncode_bytes _ _ b h
  · exact leEncode_bytes _ _ b h
  · exact leEncode_bytes _ _ b h
  · exact leEncode_bytes _ _ b h
  · exact hr b h
  · exact leEncode_bytes _ _ b h

theorem processDish_of_ok (data : List Nat) (ds : DishStats)
    (h : deserDishStats data = .ok ds) :
    processDish data =
      .ok (serDishStats { ds with count := (ds.count + 1) % 2 ^ 64 } ++ data.drop 134) := by
  obtain ⟨hlen, -, hnd⟩ := deserDishStats_ok_shape data ds h
  have hser : (serDishStats { ds with count := (ds.count + 1) % 2 ^ 64 }).length = 134 :=
    serDishStats_length _ hnd
  simp only [processDish, h, hser]
  rw [if_neg (by omega)]

theorem processDish_eq_bumpData (data : List Nat) (ds : DishStats)
    (h : deserDishStats data = .ok ds) :
    processDish data = .ok (bumpData data) := by
  rw [processDish_of_ok data ds h]
  simp only [bumpData, h]

theorem processDish_err_of_deser_err (data : List Nat) (e : ErrorCode)
    (h : deserDishStats data = .error e) :
    processDish data = .error e := by
  simp only [processDish, h]

theorem processDish_ok_inv (data d' : List Nat) (h : processDish data = .ok d') :
    ∃ ds, deserDishStats data = .ok ds := by
  cases hd : deserDishStats data with
  | error e => rw [processDish_err_of_deser_err data e hd] at h; cases h
  | ok ds => exact ⟨ds, rfl⟩

theorem bumpData_parse (data : List Nat) (ds : DishStats)
    (hB : ∀ b ∈ data, b < 256) (h : deserDishStats data = .ok ds) :
    deserDishStats (bumpData data) = .ok { ds with count := (ds.count + 1) % 2 ^ 64 } := by
  obtain ⟨hu, hd, hc, hnl, hnb⟩ := deserDishStats_ok_bounds data ds hB h
  obtain ⟨-, -, hnd⟩ := deserDishStats_ok_shape data ds h
  simp only [bumpData, h]
  obtain ⟨u, d, c, nl, nd⟩ := ds
  exact deserDishStats_ser u d ((c + 1) % 2 ^ 64) nl nd _ hu hd
    (Nat.mod_lt _ (by norm_num)) hnl hnd

theorem bumpData_bytes (data : List Nat) (hB : ∀ b ∈ data, b < 256) :
    ∀ b ∈ bumpData data, b < 256 := by
  cases hd : deserDishStats data with
  | error e => simpa [bumpData, hd] using hB
  | ok ds =>
    obtain ⟨-, -, -, -, hnb⟩ := deserDishStats_ok_bounds data ds hB hd
    simp only [bumpData, hd]
    intro b hb
    rcases List.mem_append.mp hb with h | h
    · exact serDishStats_bytes { ds with count := (ds.count + 1) % 2 ^ 64 } hnb b h
    · exact bytes_drop _ _ hB b h

theorem dishOk_iff (data : List Nat) :
    dishOk data = true ↔ ∃ ds, deserDishStats data = .ok ds := by
  cases hd : deserDishStats data with
  | error e => simp [dishOk, hd]
  | ok ds => simp [dishOk, hd]

theorem dishOk_false_of_user (data : List Nat) (us : UserStats)
    (h : deserUserStats data = .ok us) : dishOk data = false := by
  obtain ⟨hl, ht⟩ := deserUserStats_ok_shape data us h
  have hdd : deserDishStats data = .error .AccountDiscriminatorMismatch := by
    simp only [deserDishStats]
    rw [if_neg (by omega), if_neg (fun heq => user_ne_dish_disc (ht ▸ heq))]
  simp [dishOk, hdd]

theorem dishOk_false_of_review (data : List Nat) (rv : Review)
    (h : deserReview data = .ok rv) : dishOk data = false := by
  obtain ⟨hl, ht⟩ := deserReview_ok_shape data rv h
  have hdd : deserDishStats data = .error .AccountDiscriminatorMismatch := by
    simp only [deserDishStats]
    rw [if_neg (by omega), if_neg (fun heq => review_ne_dish_disc (ht ▸ heq))]
  simp [dishOk, hdd]

theorem byteLedger_getD (L : Ledger) (hB : ByteLedger L) (a : Addr) :
    ∀ b ∈ (L a).getD [], b < 256 := by
  cases hA : L a with
  | none => simp
  | some d => simpa using hB a d hA

theorem byteLedger_write (L : Ledger) (a : Addr) (d : List Nat)
    (hB : ByteLedger L) (hd : ∀ b ∈ d, b < 256) : ByteLedger (writeAcct L a d) := by
  intro a' d' h
  by_cases ha : a' = a
  · rw [ha, writeAcct_same] at h
    obtain rfl := Option.some_inj.mp h
    exact hd
  · rw [writeAcct_other _ _ _ _ ha] at h
    exact hB a' d' h

theorem runLoop_frame (aux : List Addr) (is : List Nat) (L : Ledger) (a : Addr)
    (h : ∀ i ∈ is, idxAddr aux i ≠ a) :
    (runLoop L aux is).1 a = L a := by
  induction is generalizing L with
  | nil => rfl
  | cons i is ih =>
    have hi : idxAddr aux i ≠ a := h i (List.mem_cons_self _ _)
    have hrest : ∀ j ∈ is, idxAddr aux j ≠ a := fun j hj => h j (List.mem_cons_of_mem _ hj)
    simp only [runLoop, bookTableStep]
    by_cases hlen : aux.length ≤ i
    · rw [if_pos hlen]
      exact ih L hrest
    · rw [if_neg hlen]
      simp only [bookTableStepBody]
      cases hp : processDish ((L (idxAddr aux i)).getD []) with
      | error e => simp
      | ok d' =>
        simp only []
        rw [ih _ hrest, writeAcct_other _ _ _ _ (Ne.symm hi)]

theorem runLoop_not_dish (aux : List Addr) (is : List Nat) (L : Ledger) (a : Addr)
    (h : dishOk ((L a).getD []) = false) :
    (runLoop L aux is).1 a = L a := by
  induction is generalizing L with
  | nil => rfl
  | cons i is ih =>
    simp only [runLoop, bookTableStep]
    by_cases hlen : aux.length ≤ i
    · rw [if_pos hlen]
      exact ih L h
    · rw [if_neg hlen]
      simp only [bookTableStepBody]
      by_cases ha : idxAddr aux i = a
      · rw [ha]
        cases hp : processDish ((L a).getD []) with
        | error e => simp
        | ok d' =>
          exfalso
          obtain ⟨ds, hds⟩ := processDish_ok_inv _ _ hp
          rw [(dishOk_iff _).mpr ⟨ds, hds⟩] at h
          cases h
      · cases hp : processDish ((L (idxAddr aux i)).getD []) with
        | error e => simp
        | ok d' =>
          simp only []
          have hL' : writeAcct L (idxAddr aux i) d' a = L a :=
            writeAcct_other _ _ _ _ (Ne.symm ha)
          have h' : dishOk ((writeAcct L (idxAddr aux i) d' a).getD []) = false := by
            rw [hL']; exact h
          rw [ih _ h', hL']

theorem runLoop_user_frame (aux : List Addr) (is : List Nat) (L : Ledger) (a : Addr)
    (us : UserStats) (h : deserUserStats ((L a).getD []) = .ok us) :
    (runLoop L aux is).1 a = L a :=
  runLoop_not_dish aux is L a (dishOk_false_of_user _ _ h)

theorem runLoop_review_frame (aux : List Addr) (is : List Nat) (L : Ledger) (a : Addr)
    (rv : Review) (h : deserReview ((L a).getD []) = .ok rv) :
    (runLoop L aux is).1 a = L a :=
  runLoop_not_dish aux is L a (dishOk_false_of_review _ _ h)

theorem runLoop_bytes (aux : List Addr) (is : List Nat) (L : Ledger)
    (hB : ByteLedger L) : ByteLedger (runLoop L aux is).1 := by
  induction is generalizing L with
  | nil => exact hB
  | cons i is ih =>
    simp only [runLoop, bookTableStep]
    by_cases hlen : aux.length ≤ i
    · rw [if_pos hlen]
      exact ih L hB
    · rw [if_neg hlen]
      simp only [bookTableStepBody]
      cases hp : processDish ((L (idxAddr aux i)).getD []) with
      | error e => exact hB
      | ok d' =>
        simp only []
        obtain ⟨ds, hds⟩ := processDish_ok_inv _ _ hp
        have hbd := processDish_eq_bumpData _ _ hds
        rw [hp] at hbd
        injection hbd with hbd
        subst hbd
        exact ih _ (byteLedger_write _ _ _ hB (bumpData_bytes _ (byteLedger_getD L hB _)))

theorem runLoop_append (aux : List Addr) (is₁ is₂ : List Nat) (L : Ledger) :
    runLoop L aux (is₁ ++ is₂) =
      match runLoop L aux is₁ with
      | (L', some e) => (L', some e)
      | (L', none) => runLoop L' aux is₂ := by
  induction is₁ generalizing L with
  | nil => simp [runLoop]
  | cons i is ih =>
    simp only [List.cons_append, runLoop]
    cases hstep : bookTableStep L aux i with
    | mk L' e =>
      cases e with
      | none => simp [ih]
      | some err => simp

theorem runLoop_all_ok (aux : List Addr) (is : List Nat) (L : Ledger)
    (hnd : (is.map (idxAddr aux)).Nodup)
    (hlt : ∀ i ∈ is, i < aux.length)
    (hok : ∀ i ∈ is, dishOk ((L (idxAddr aux i)).getD []) = true) :
    (runLoop L aux is).2 = none ∧
      (∀ i ∈ is, (runLoop L aux is).1 (idxAddr aux i) =
        some (bumpData ((L (idxAddr aux i)).getD []))) ∧
      (∀ a, a ∉ is.map (idxAddr aux) → (runLoop L aux is).1 a = L a) := by
  induction is generalizing L with
  | nil => exact ⟨rfl, by simp, fun a _ => rfl⟩
  | cons i is ih =>
    have hi_lt : i < aux.length := hlt i (List.mem_cons_self _ _)
    obtain ⟨ds, hds⟩ := (dishOk_iff _).mp (hok i (List.mem_cons_self _ _))
    have hstep : bookTableStep L aux i =
        (writeAcct L (idxAddr aux i) (bumpData ((L (idxAddr aux i)).getD [])), none) := by
      simp only [bookTableStep, if_neg (not_le.mpr hi_lt), bookTableStepBody,
        processDish_eq_bumpData _ _ hds]
    have hrun : runLoop L aux (i :: is) =
        runLoop (writeAcct L (idxAddr aux i) (bumpData ((L (idxAddr aux i)).getD []))) aux is := by
      simp only [runLoop, hstep]
    rw [List.map_cons, List.nodup_cons] at hnd
    obtain ⟨hnotin, htail_nd⟩ := hnd
    have hsame : ∀ j ∈ is,
        writeAcct L (idxAddr aux i) (bumpData ((L (idxAddr aux i)).getD [])) (idxAddr aux j)
          = L (idxAddr aux j) := by
      intro j hj
      refine writeAcct_other _ _ _ _ fun heq => hnotin ?_
      exact heq ▸ List.mem_map_of_mem _ hj
    have hok' : ∀ j ∈ is,
        dishOk ((writeAcct L (idxAddr aux i) (bumpData ((L (idxAddr aux i)).getD []))
          (idxAddr aux j)).getD []) = true := by
      intro j hj
      rw [hsame j hj]
      exact hok j (List.mem_cons_of_mem _ hj)
    obtain ⟨he, hset, hframe⟩ :=
      ih _ htail_nd (fun j hj => hlt j (List.mem_cons_of_mem _ hj)) hok'
    refine ⟨by rw [hrun]; exact he, ?_, ?_⟩
    · intro j hj
      rcases List.mem_cons.mp hj with rfl | hj'
      · rw [hrun, hframe _ hnotin, writeAcct_same]
      · rw [hrun, hset j hj', hsame j hj']
    · intro a ha
      rw [List.map_cons, List.mem_cons] at ha
      push_neg at ha
      obtain ⟨ha1, ha2⟩ := ha
      rw [hrun, hframe a ha2, writeAcct_other _ _ _ _ ha1]

theorem runLoop_dish_count (aux : List Addr) (is : List Nat) (L : Ledger) (a : Addr)
    (hB : ByteLedger L) (c : Nat) (h : dishCountAt L a = some c) (hc : c < 2 ^ 64) :
    ∃ k, k ≤ is.length ∧ dishCountAt (runLoop L aux is).1 a = some ((c + k) % 2 ^ 64) := by
  induction is generalizing L c with
  | nil =>
    refine ⟨0, Nat.zero_le _, ?_⟩
    simp only [runLoop, Nat.add_zero, Nat.mod_eq_of_lt hc]
    exact h
  | cons i is ih =>
    simp only [runLoop, bookTableStep]
    by_cases hlen : aux.length ≤ i
    · rw [if_pos hlen]
      obtain ⟨k, hk, hres⟩ := ih L hB c h hc
      exact ⟨k, by simp only [List.length_cons]; omega, hres⟩
    · rw [if_neg hlen]
      simp only [bookTableStepBody]
      by_cases ha : idxAddr aux i = a
      · rw [ha]
        obtain ⟨ds, hds, hdc⟩ : ∃ ds, deserDishStats ((L a).getD []) = .ok ds ∧ ds.count = c := by
          unfold dishCountAt at h
          cases hd : deserDishStats ((L a).getD []) with
          | error e => rw [hd] at h; simp [Except.toOption] at h
          | ok ds =>
            rw [hd] at h
            simp only [Except.toOption, Option.map_some'] at h
            exact ⟨ds, rfl, Option.some_inj.mp h⟩
        rw [processDish_eq_bumpData _ _ hds]
        simp only []
        have hB' : ByteLedger (writeAcct L a (bumpData ((L a).getD []))) :=
          byteLedger_write _ _ _ hB (bumpData_bytes _ (byteLedger_getD L hB a))
        have hcount' : dishCountAt (writeAcct L a (bumpData ((L a).getD []))) a
            = some ((c + 1) % 2 ^ 64) := by
          unfold dishCountAt
          rw [writeAcct_same]
          simp only [Option.getD_some]
          rw [bumpData_parse _ _ (byteLedger_getD L hB a) hds]
          simp [Except.toOption, hdc]
        obtain ⟨k, hk, hres⟩ := ih _ hB' ((c + 1) % 2 ^ 64) hcount' (Nat.mod_lt _ (by norm_num))
        refine ⟨k + 1, by simp only [List.length_cons]; omega, ?_⟩
        rw [hres, Nat.mod_add_mod]
        congr 2
        omega
      · cases hp : processDish ((L (idxAddr aux i)).getD []) with
        | error e =>
          refine ⟨0, Nat.zero_le _, ?_⟩
          simp only [Nat.add_zero, Nat.mod_eq_of_lt hc]
          exact h
        | ok d' =>
          simp only []
          obtain ⟨ds, hds⟩ := processDish_ok_inv _ _ hp
          have hbd := processDish_eq_bumpData _ _ hds
          rw [hp] at hbd
          injection hbd with hbd
          subst hbd
          have hB' : ByteLedger (writeAcct L (idxAddr aux i)
              (bumpData ((L (idxAddr aux i)).getD []))) :=
            byteLedger_write _ _ _ hB (bumpData_bytes _ (byteLedger_getD L hB _))
          have hcount' : dishCountAt (writeAcct L (idxAddr aux i)
              (bumpData ((L (idxAddr aux i)).getD []))) a = some c := by
            unfold dishCountAt
            rw [writeAcct_other _ _ _ _ (Ne.symm ha)]
            exact h
          obtain ⟨k, hk, hres⟩ := ih _ hB' c hcount' hc
          exact ⟨k, by simp only [List.length_cons]; omega, hres⟩

theorem stepIndices_mem (len i : Nat) : i ∈ stepIndices len ↔ i < len ∧ i % 2 = 0 := by
  simp [stepIndices, List.mem_filter, List.mem_range]

theorem stepIndices_lt (len i : Nat) (h : i ∈ stepIndices len) : i < len :=
  ((stepIndices_mem len i).mp h).1

theorem stepIndices_decomp (len k : Nat) (hk : k < len) (he : k % 2 = 0) :
    ∃ post : List Nat, stepIndices len = stepIndices k ++ k :: post ∧ ∀ j ∈ post, k < j := by
  have h2 : k + (len - k) = len := by omega
  have h1 : stepIndices len = stepIndices k ++
      ((List.range (len - k)).map (fun x => k + x)).filter (fun i => i % 2 = 0) := by
    unfold stepIndices
    rw [← List.filter_append]
    congr 1
    calc List.range len = List.range (k + (len - k)) := by rw [h2]
      _ = List.range k ++ (List.range (len - k)).map (fun x => k + x) := List.range_add _ _
  have h3 : ((List.range (len - k)).map (fun x => k + x)).filter (fun i => i % 2 = 0)
      = ((List.range (len - k)).filter (fun x => x % 2 = 0)).map (fun x => k + x) := by
    rw [List.filter_map]
    congr 1
    apply List.filter_congr
    intro x _
    simp only [Function.comp_apply, decide_eq_decide]
    omega
  obtain ⟨m, hm⟩ : ∃ m, len - k = m + 1 := ⟨len - k - 1, by omega⟩
  rw [h1, h3, hm, List.range_succ_eq_map]
  rw [List.filter_cons_of_pos (by simp)]
  rw [List.map_cons, Nat.add_zero]
  refine ⟨_, rfl, ?_⟩
  intro j hj
  rw [List.mem_map] at hj
  obtain ⟨x, hx, rfl⟩ := hj
  rw [List.mem_filter, List.mem_map] at hx
  obtain ⟨⟨y, -, rfl⟩, -⟩ := hx
  omega

theorem init_dish_core_name_bytes (u d : Pubkey) (name : List Nat)
    (h : ∀ b ∈ name, b < 256) :
    ∀ b ∈ (init_dish_stats_core u d name).name_data, b < 256 := by
  intro b hb
  simp only [init_dish_stats_core, List.mem_append] at hb
  rcases hb with h1 | h1
  · exact h b (List.take_subset _ _ h1)
  · rw [List.eq_of_mem_replicate h1]
    omega

theorem init_dish_core_name_length (u d : Pubkey) (name : List Nat) :
    (init_dish_stats_core u d name).name_data.length = 50 := by
  simp only [init_dish_stats_core, List.length_append, List.length_take,
    List.length_replicate]
  omega

theorem submit_review_core_ok (acct : Review) (u r : Pubkey) (rating : Nat)
    (review : List Nat) (conf : Nat) (r' : Review)
    (h : submit_review_core acct u r rating review conf = .ok r') :
    r' = ⟨u, r, rating, min review.length 200,
          review.take (min review.length 200) ++
            List.replicate (200 - min review.length 200) 0, conf⟩ ∧
      1 ≤ rating ∧ rating ≤ 5 ∧ 1 ≤ conf ∧ conf ≤ 10 ∧ acct.review_len = 0 := by
  unfold submit_review_core at h
  by_cases c1 : 1 ≤ rating ∧ rating ≤ 5
  · rw [if_pos c1] at h
    by_cases c2 : 1 ≤ conf ∧ conf ≤ 10
    · rw [if_pos c2] at h
      by_cases c3 : 0 < acct.review_len
      · rw [if_pos c3] at h
        cases h
      · rw [if_neg c3] at h
        injection h with h
        exact ⟨h.symm, c1.1, c1.2, c2.1, c2.2, by omega⟩
    · rw [if_neg c2] at h
      cases h
  · rw [if_neg c1] at h
    cases h

theorem review_buf_length (review : List Nat) :
    (review.take (min review.length 200) ++
      List.replicate (200 - min review.length 200) 0).length = 200 := by
  simp only [List.length_append, List.length_take, List.length_replicate]
  omega

theorem review_buf_bytes (review : List Nat) (h : ∀ b ∈ review, b < 256) :
    ∀ b ∈ (review.take (min review.length 200) ++
      List.replicate (200 - min review.length 200) 0), b < 256 := by
  intro b hb
  rcases List.mem_append.mp hb with h1 | h1
  · exact h b (List.take_subset _ _ h1)
  · rw [List.eq_of_mem_replicate h1]
    omega

theorem submit_review_core_result_parses (acct : Review) (u r : Pubkey) (rating : Nat)
    (review : List Nat) (conf : Nat) (r' : Review)
    (hu : u < 2 ^ 256) (hr : r < 2 ^ 256)
    (h : submit_review_core acct u r rating review conf = .ok r') (rest : List Nat) :
    deserReview (serReview r' ++ rest) = .ok r' := by
  obtain ⟨hr', h1, h2, h3, h4, -⟩ := submit_review_core_ok acct u r rating review conf r' h
  subst hr'
  exact deserReview_ser u r rating (min review.length 200) conf _ rest hu hr
    (by omega) (by omega) (by omega) (review_buf_length review)

theorem reachable_inv {L : Ledger} (h : Reachable L) : ByteLedger L ∧ ReviewsParse L := by
  induction h with
  | empty =>
    constructor
    · intro a d hd
      simp [emptyLedger] at hd
    · intro u r d hd
      simp [emptyLedger] at hd
  | step op hwf hR ih =>
    obtain ⟨hB, hRev⟩ := ih
    rename_i L
    cases op with
    | initUser u r =>
      simp only [applyOp, init_user_stats_op]
      cases hL : L (.userStatsAddr u r) with
      | some d =>
        simp only []
        exact ⟨hB, hRev⟩
      | none =>
        simp only []
        refine ⟨byteLedger_write _ _ _ hB (serUserStats_bytes _), ?_⟩
        intro u' r' d hd
        rw [writeAcct_other _ _ _ _ (fun heq => Addr.noConfusion heq)] at hd
        exact hRev u' r' d hd
    | initDish u d name =>
      obtain ⟨hu, hdk, hname⟩ := hwf
      simp only [applyOp, init_dish_stats_op]
      cases hL : L (.dishStatsAddr u d) with
      | some dd =>
        simp only []
        exact ⟨hB, hRev⟩
      | none =>
        simp only []
        refine ⟨byteLedger_write _ _ _ hB
          (serDishStats_bytes _ (init_dish_core_name_bytes u d name hname)), ?_⟩
        intro u' r' dd hd
        rw [writeAcct_other _ _ _ _ (fun heq => Addr.noConfusion heq)] at hd
        exact hRev u' r' dd hd
    | submitReview u r rating review conf =>
      obtain ⟨hu, hr, hrt, hcf, hrev⟩ := hwf
      simp only [applyOp, submit_review_op]
      cases hL : L (.reviewAddr u r) with
      | none =>
        simp only []
        cases hcore : submit_review_core ⟨0, 0, 0, 0, List.replicate 200 0, 0⟩ u r rating
            review conf with
        | error e =>
          simp only []
          exact ⟨hB, hRev⟩
        | ok r' =>
          simp only []
          obtain ⟨hr'', -, -, -, -, -⟩ := submit_review_core_ok _ _ _ _ _ _ _ hcore
          refine ⟨byteLedger_write _ _ _ hB
            (serReview_bytes _ (by rw [hr'']; exact review_buf_bytes review hrev)), ?_⟩
          intro u' r' dd hd
          by_cases heq : Addr.reviewAddr u' r' = Addr.reviewAddr u r
          · rw [heq, writeAcct_same] at hd
            obtain rfl := Option.some_inj.mp hd
            have hp := submit_review_core_result_parses _ _ _ _ _ _ _ hu hr hcore []
            rw [List.append_nil] at hp
            exact ⟨_, hp⟩
          · rw [writeAcct_other _ _ _ _ heq] at hd
            exact hRev u' r' dd hd
      | some d =>
        simp only []
        cases hdes : deserReview d with
        | error e =>
          simp only []
          exact ⟨hB, hRev⟩
        | ok acct =>
          simp only []
          cases hcore : submit_review_core acct u r rating review conf with
          | error e =>
            simp only []
            exact ⟨hB, hRev⟩
          | ok r' =>
            simp only []
            obtain ⟨hr'', -, -, -, -, -⟩ := submit_review_core_ok _ _ _ _ _ _ _ hcore
            refine ⟨byteLedger_write _ _ _ hB
              (serReview_bytes _ (by rw [hr'']; exact review_buf_bytes review hrev)), ?_⟩
            intro u' r' dd hd
            by_cases heq : Addr.reviewAddr u' r' = Addr.reviewAddr u r
            · rw [heq, writeAcct_same] at hd
              obtain rfl := Option.some_inj.mp hd
              have hp := submit_review_core_result_parses _ _ _ _ _ _ _ hu hr hcore []
              rw [List.append_nil] at hp
              exact ⟨_, hp⟩
            · rw [writeAcct_other _ _ _ _ heq] at hd
              exact hRev u' r' dd hd
    | bookTable u r ids aux =>
      simp only [applyOp, book_table_op]
      cases hL : L (.userStatsAddr u r) with
      | none =>
        simp only []
        exact ⟨hB, hRev⟩
      | some d =>
        simp only []
        cases hdes : deserUserStats d with
        | error e =>
          simp only []
          exact ⟨hB, hRev⟩
        | ok us =>
          simp only []
          have hB1 : ByteLedger (writeAcct L (.userStatsAddr u r)
              (serUserStats { us with visit_count := (us.visit_count + 1) % 2 ^ 64 })) :=
            byteLedger_write _ _ _ hB (serUserStats_bytes _)
          refine ⟨runLoop_bytes _ _ _ hB1, ?_⟩
          intro u' r' dd hd
          have hL1 : writeAcct L (.userStatsAddr u r)
              (serUserStats { us with visit_count := (us.visit_count + 1) % 2 ^ 64 })
              (.reviewAddr u' r') = L (.reviewAddr u' r') :=
            writeAcct_other _ _ _ _ (fun heq => Addr.noConfusion heq)
          cases hold : L (.reviewAddr u' r') with
          | none =>
            have hfr : (runLoop (writeAcct L (.userStatsAddr u r)
                (serUserStats { us with visit_count := (us.visit_count + 1) % 2 ^ 64 }))
                aux (stepIndices aux.length)).1 (.reviewAddr u' r')
                = writeAcct L (.userStatsAddr u r)
                  (serUserStats { us with visit_count := (us.visit_count + 1) % 2 ^ 64 })
                  (.reviewAddr u' r') :=
              runLoop_not_dish _ _ _ _ (by rw [hL1, hold]; decide)
            rw [hfr, hL1, hold] at hd
            cases hd
          | some dold =>
            obtain ⟨rv, hrv⟩ := hRev u' r' dold hold
            have hfr : (runLoop (writeAcct L (.userStatsAddr u r)
                (serUserStats { us with visit_count := (us.visit_count + 1) % 2 ^ 64 }))
                aux (stepIndices aux.length)).1 (.reviewAddr u' r')
                = writeAcct L (.userStatsAddr u r)
                  (serUserStats { us with visit_count := (us.visit_count + 1) % 2 ^ 64 })
                  (.reviewAddr u' r') :=
              runLoop_review_frame _ _ _ _ rv (by rw [hL1, hold]; simpa using hrv)
            rw [hfr, hL1, hold] at hd
            obtain rfl := Option.some_inj.mp hd
            exact ⟨rv, hrv⟩

theorem user_ne_review_disc : USER_DISC ≠ REVIEW_DISC := by decide

theorem stepIndices_zero : stepIndices 0 = [] := rfl

theorem stepIndices_length_le (len : Nat) : (stepIndices len).length ≤ len := by
  calc (stepIndices len).length ≤ (List.range len).length := List.length_filter_le _ _
    _ = len := List.length_range len

theorem deserUserStats_ser_nil (u r v : Nat)
    (hu : u < 2 ^ 256) (hr : r < 2 ^ 256) (hv : v < 2 ^ 64) :
    deserUserStats (serUserStats ⟨u, r, v⟩) = .ok ⟨u, r, v⟩ := by
  have h := deserUserStats_ser u r v [] hu hr hv
  rwa [List.append_nil] at h

theorem deserDishStats_ser_nil (u d c nl : Nat) (nd : List Nat)
    (hu : u < 2 ^ 256) (hd : d < 2 ^ 256) (hc : c < 2 ^ 64) (hnl : nl < 2 ^ 32)
    (hnd : nd.length = 50) :
    deserDishStats (serDishStats ⟨u, d, c, nl, nd⟩) = .ok ⟨u, d, c, nl, nd⟩ := by
  have h := deserDishStats_ser u d c nl nd [] hu hd hc hnl hnd
  rwa [List.append_nil] at h

theorem deserReview_ser_nil (u r rt rl cf : Nat) (rd : List Nat)
    (hu : u < 2 ^ 256) (hr : r < 2 ^ 256) (hrt : rt < 2 ^ 8) (hrl : rl < 2 ^ 32)
    (hcf : cf < 2 ^ 8) (hrd : rd.length = 200) :
    deserReview (serReview ⟨u, r, rt, rl, rd, cf⟩) = .ok ⟨u, r, rt, rl, rd, cf⟩ := by
  have h := deserReview_ser u r rt rl cf rd [] hu hr hrt hrl hcf hrd
  rwa [List.append_nil] at h

theorem deserUserStats_ser_mod (u r v : Nat) (rest : List Nat) :
    deserUserStats (serUserStats ⟨u, r, v⟩ ++ rest) =
      .ok ⟨u % 2 ^ 256, r % 2 ^ 256, v % 2 ^ 64⟩ := by
  simp only [serUserStats, List.append_assoc, deserUserStats]
  rw [List.take_left' USER_DISC_length, List.drop_left' USER_DISC_length,
      List.take_left' (leEncode_length 32 u), List.drop_left' (leEncode_length 32 u),
      List.take_left' (leEncode_length 32 r), List.drop_left' (leEncode_length 32 r),
      List.take_left' (leEncode_length 8 v)]
  rw [if_neg (by
        simp only [List.length_append, leEncode_length, USER_DISC_length]; omega),
      if_pos rfl,
      if_neg (by
        simp only [List.length_append, leEncode_length]; omega)]
  rw [leDecode_leEncode, leDecode_leEncode, leDecode_leEncode, pow256_32, pow256_8]

theorem deserDishStats_ser_mod (u d c nl : Nat) (nd rest : List Nat)
    (hnd : nd.length = 50) :
    deserDishStats (serDishStats ⟨u, d, c, nl, nd⟩ ++ rest) =
      .ok ⟨u % 2 ^ 256, d % 2 ^ 256, c % 2 ^ 64, nl % 2 ^ 32, nd⟩ := by
  simp only [serDishStats, List.append_assoc, deserDishStats]
  rw [List.take_left' DISH_DISC_length, List.drop_left' DISH_DISC_length,
      List.take_left' (leEncode_length 32 u), List.drop_left' (leEncode_length 32 u),
      List.take_left' (leEncode_length 32 d), List.drop_left' (leEncode_length 32 d),
      List.take_left' (leEncode_length 8 c), List.drop_left' (leEncode_length 8 c),
      List.take_left' (leEncode_length 4 nl), List.drop_left' (leEncode_length 4 nl),
      List.take_left' hnd]
  rw [if_neg (by
        simp only [List.length_append, leEncode_length, DISH_DISC_length]; omega),
      if_pos rfl,
      if_neg (by
        simp only [List.length_append, leEncode_length, hnd]; omega)]
  rw [leDecode_leEncode, leDecode_leEncode, leDecode_leEncode, leDecode_leEncode,
      pow256_32, pow256_8, pow256_4]

theorem deserUserStats_ser_mod_nil (u r v : Nat) :
    deserUserStats (serUserStats ⟨u, r, v⟩) =
      .ok ⟨u % 2 ^ 256, r % 2 ^ 256, v % 2 ^ 64⟩ := by
  have h := deserUserStats_ser_mod u r v []
  rwa [List.append_nil] at h

theorem bumpData_count (data : List Nat) (ds : DishStats)
    (h : deserDishStats data = .ok ds) :
    (deserDishStats (bumpData data)).toOption.map DishStats.count =
      some ((ds.count + 1) % 2 ^ 64) := by
  obtain ⟨-, -, hnd⟩ := deserDishStats_ok_shape data ds h
  simp only [bumpData, h]
  obtain ⟨u, d, c, nl, nd⟩ := ds
  rw [deserDishStats_ser_mod u d ((c + 1) % 2 ^ 64) nl nd _ hnd]
  simp only [Except.toOption, Option.map_some']
  congr 1
  omega

theorem deserUserStats_disc_err (data : List Nat) (hlen : ¬data.length < 8)
    (hdisc : ¬data.take 8 = USER_DISC) :
    deserUserStats data = .error .AccountDiscriminatorMismatch := by
  unfold deserUserStats
  rw [if_neg hlen, if_neg hdisc]

theorem user_err_of_review (data : List Nat) (rv : Review)
    (h : deserReview data = .ok rv) :
    deserUserStats data = .error .AccountDiscriminatorMismatch := by
  obtain ⟨hl, ht⟩ := deserReview_ok_shape data rv h
  exact deserUserStats_disc_err data (by omega)
    (fun heq => user_ne_review_disc (heq.symm ▸ ht.symm ▸ rfl))

theorem user_err_of_dish (data : List Nat) (ds : DishStats)
    (h : deserDishStats data = .ok ds) :
    deserUserStats data = .error .AccountDiscriminatorMismatch := by
  obtain ⟨hl, ht, -⟩ := deserDishStats_ok_shape data ds h
  exact deserUserStats_disc_err data (by omega)
    (fun heq => user_ne_dish_disc (heq.symm ▸ ht.symm ▸ rfl))

theorem dish_err_of_user (data : List Nat) (us : UserStats)
    (h : deserUserStats data = .ok us) :
    deserDishStats data = .error .AccountDiscriminatorMismatch := by
  obtain ⟨hl, ht⟩ := deserUserStats_ok_shape data us h
  simp only [deserDishStats]
  rw [if_neg (by omega), if_neg (fun heq => user_ne_dish_disc (ht ▸ heq))]

theorem dish_err_of_review (data : List Nat) (rv : Review)
    (h : deserReview data = .ok rv) :
    deserDishStats data = .error .AccountDiscriminatorMismatch := by
  obtain ⟨hl, ht⟩ := deserReview_ok_shape data rv h
  simp only [deserDishStats]
  rw [if_neg (by omega), if_neg (fun heq => review_ne_dish_disc (ht ▸ heq))]

theorem visitCountAt_lt (L : Ledger) (hB : ByteLedger L) (a : Addr) (c : Nat)
    (h : visitCountAt L a = some c) : c < 2 ^ 64 := by
  unfold visitCountAt at h
  cases hd : deserUserStats ((L a).getD []) with
  | error e => rw [hd] at h; simp [Except.toOption] at h
  | ok us =>
    rw [hd] at h
    simp only [Except.toOption, Option.map_some'] at h
    obtain rfl := Option.some_inj.mp h
    exact (deserUserStats_ok_bounds _ us (byteLedger_getD L hB a) hd).2.2

theorem dishCountAt_lt (L : Ledger) (hB : ByteLedger L) (a : Addr) (c : Nat)
    (h : dishCountAt L a = some c) : c < 2 ^ 64 := by
  unfold dishCountAt at h
  cases hd : deserDishStats ((L a).getD []) with
  | error e => rw [hd] at h; simp [Except.toOption] at h
  | ok ds =>
    rw [hd] at h
    simp only [Except.toOption, Option.map_some'] at h
    obtain rfl := Option.some_inj.mp h
    exact (deserDishStats_ok_bounds _ ds (byteLedger_getD L hB a) hd).2.2.1

theorem dishCountAt_inv (L : Ledger) (a : Addr) (c : Nat)
    (h : dishCountAt L a = some c) :
    ∃ ds, deserDishStats ((L a).getD []) = .ok ds ∧ ds.count = c := by
  unfold dishCountAt at h
  cases hd : deserDishStats ((L a).getD []) with
  | error e => rw [hd] at h; simp [Except.toOption] at h
  | ok ds =>
    rw [hd] at h
    simp only [Except.toOption, Option.map_some'] at h
    exact ⟨ds, rfl, Option.some_inj.mp h⟩

theorem visitCountAt_inv (L : Ledger) (a : Addr) (c : Nat)
    (h : visitCountAt L a = some c) :
    ∃ us, deserUserStats ((L a).getD []) = .ok us ∧ us.visit_count = c := by
  unfold visitCountAt at h
  cases hd : deserUserStats ((L a).getD []) with
  | error e => rw [hd] at h; simp [Except.toOption] at h
  | ok us =>
    rw [hd] at h
    simp only [Except.toOption, Option.map_some'] at h
    exact ⟨us, rfl, Option.some_inj.mp h⟩

/-! ### Claim theorems -/

/-- C4: a first InitUserStats call for a fresh `(user, restaurant)` pair
succeeds and creates the UserStats record with the given identities and
`visit_count = 0`; a second call for the same pair fails with the
already-initialized error (`AlreadyInUse`, the spec's `AlreadyInitialized`)
and returns the ledger unchanged, leaving the original record intact. -/
theorem C4_init_user_stats (L : Ledger) (u r : Pubkey)
    (hu : u < 2 ^ 256) (hr : r < 2 ^ 256)
    (habsent : L (.userStatsAddr u r) = none) :
    (init_user_stats_op L u r).2 = none ∧
    readUserStats (init_user_stats_op L u r).1 u r = some ⟨u, r, 0⟩ ∧
    init_user_stats_op (init_user_stats_op L u r).1 u r =
      ((init_user_stats_op L u r).1, some .AlreadyInUse) ∧
    readUserStats (init_user_stats_op (init_user_stats_op L u r).1 u r).1 u r =
      some ⟨u, r, 0⟩ := by
  have hwrite : init_user_stats_op L u r =
      (writeAcct L (.userStatsAddr u r) (serUserStats ⟨u, r, 0⟩), none) := by
    unfold init_user_stats_op
    rw [habsent]
    rfl
  have hread : readUserStats (writeAcct L (.userStatsAddr u r) (serUserStats ⟨u, r, 0⟩)) u r
      = some ⟨u, r, 0⟩ := by
    unfold readUserStats
    rw [writeAcct_same]
    simp only [Option.getD_some]
    rw [deserUserStats_ser_nil u r 0 hu hr (by norm_num)]
    rfl
  have hsecond : init_user_stats_op
      (writeAcct L (.userStatsAddr u r) (serUserStats ⟨u, r, 0⟩)) u r
      = (writeAcct L (.userStatsAddr u r) (serUserStats ⟨u, r, 0⟩), some .AlreadyInUse) := by
    unfold init_user_stats_op
    rw [writeAcct_same]
  refine ⟨by rw [hwrite], by rw [hwrite]; exact hread, by rw [hwrite]; exact hsecond, ?_⟩
  rw [hwrite]
  simp only []
  rw [hsecond]
  exact hread

theorem C4_witness :
    (init_user_stats_op emptyLedger 2 5).2 = none ∧
    readUserStats (init_user_stats_op emptyLedger 2 5).1 2 5 = some ⟨2, 5, 0⟩ ∧
    init_user_stats_op (init_user_stats_op emptyLedger 2 5).1 2 5 =
      ((init_user_stats_op emptyLedger 2 5).1, some .AlreadyInUse) ∧
    readUserStats (init_user_stats_op (init_user_stats_op emptyLedger 2 5).1 2 5).1 2 5 =
      some ⟨2, 5, 0⟩ :=
  C4_init_user_stats emptyLedger 2 5 (by norm_num) (by norm_num) rfl

/-- C5: for every name, a successful InitDishStats call (fresh account)
stores `count = 0`, `name_len = min (length name) 50`, and a 50-byte
`name_data` holding the first `name_len` bytes of the name followed by
zeroes; oversized names are silently truncated — the call still succeeds for
every name. -/
theorem C5_init_dish_stats (L : Ledger) (u d : Pubkey) (name : List Nat)
    (hu : u < 2 ^ 256) (hd : d < 2 ^ 256)
    (habsent : L (.dishStatsAddr u d) = none) :
    (init_dish_stats_op L u d name).2 = none ∧
    readDishStats (init_dish_stats_op L u d name).1 u d =
      some ⟨u, d, 0, min name.length 50,
        name.take (min name.length 50) ++ List.replicate (50 - min name.length 50) 0⟩ ∧
    (name.take (min name.length 50) ++
      List.replicate (50 - min name.length 50) 0).length = 50 := by
  have hlen50 := init_dish_core_name_length u d name
  have hcore : init_dish_stats_core u d name =
      ⟨u, d, 0, min name.length 50,
        name.take (min name.length 50) ++ List.replicate (50 - min name.length 50) 0⟩ := rfl
  have hbuf : (name.take (min name.length 50) ++
      List.replicate (50 - min name.length 50) 0).length = 50 := by
    rw [hcore] at hlen50
    exact hlen50
  have hwrite : init_dish_stats_op L u d name =
      (writeAcct L (.dishStatsAddr u d) (serDishStats (init_dish_stats_core u d name)),
        none) := by
    unfold init_dish_stats_op
    rw [habsent]
  refine ⟨by rw [hwrite], ?_, hbuf⟩
  rw [hwrite]
  simp only []
  unfold readDishStats
  rw [writeAcct_same]
  simp only [Option.getD_some, hcore]
  rw [deserDishStats_ser_nil u d 0 (min name.length 50) _ hu hd (by norm_num)
    (by omega) hbuf]
  rfl

theorem C5_witness :
    (init_dish_stats_op emptyLedger 1 2 (List.replicate 60 65)).2 = none ∧
    readDishStats (init_dish_stats_op emptyLedger 1 2 (List.replicate 60 65)).1 1 2 =
      some ⟨1, 2, 0, min (List.replicate 60 65 : List Nat).length 50,
        (List.replicate 60 65 : List Nat).take (min (List.replicate 60 65 : List Nat).length 50) ++
          List.replicate (50 - min (List.replicate 60 65 : List Nat).length 50) 0⟩ ∧
    ((List.replicate 60 65 : List Nat).take (min (List.replicate 60 65 : List Nat).length 50) ++
      List.replicate (50 - min (List.replicate 60 65 : List Nat).length 50) 0).length = 50 :=
  C5_init_dish_stats emptyLedger 1 2 (List.replicate 60 65) (by norm_num) (by norm_num) rfl

/-- C2: once a review with `review_len > 0` is stored for a `(user,
restaurant)` pair, a further SubmitReview call with any valid rating and
confidence level fails with `ReviewAlreadyExists`, and the operation returns
the input ledger — every field of the stored review (user, restaurant,
rating, confidence_level, review_len, review_data) is exactly as before. -/
theorem C2_review_write_once (L : Ledger) (u r : Pubkey) (d : List Nat) (rec : Review)
    (hstored : L (.reviewAddr u r) = some d)
    (hparse : deserReview d = .ok rec)
    (hlen : 0 < rec.review_len)
    (rating conf : Nat) (review : List Nat)
    (hrat : 1 ≤ rating ∧ rating ≤ 5) (hconf : 1 ≤ conf ∧ conf ≤ 10) :
    submit_review_op L u r rating review conf = (L, some .ReviewAlreadyExists) := by
  have hcore : submit_review_core rec u r rating review conf =
      .error .ReviewAlreadyExists := by
    unfold submit_review_core
    rw [if_pos hrat, if_pos hconf, if_pos hlen]
  unfold submit_review_op
  rw [hstored]
  simp only [hparse, hcore]

theorem C2_witness :
    submit_review_op (submit_review_op emptyLedger 0 1 4 [111, 107] 8).1 0 1 5 [120] 9
      = ((submit_review_op emptyLedger 0 1 4 [111, 107] 8).1,
          some .ReviewAlreadyExists) :=
  C2_review_write_once (submit_review_op emptyLedger 0 1 4 [111, 107] 8).1 0 1
    (serReview ⟨0, 1, 4, 2, 111 :: 107 :: List.replicate 198 0, 8⟩)
    ⟨0, 1, 4, 2, 111 :: 107 :: List.replicate 198 0, 8⟩
    (by decide)
    (deserReview_ser_nil 0 1 4 2 8 (111 :: 107 :: List.replicate 198 0) (by norm_num)
      (by norm_num) (by norm_num) (by norm_num) (by norm_num) (by simp))
    (by decide) 5 9 [120] (by decide) (by decide)

/-- C3: SubmitReview fails with `InvalidRating` for every rating outside
[1,5]; for a valid rating and a confidence level outside [1,10] it fails
with `InvalidConfidenceLevel`; in both cases the returned ledger is the
input ledger, so no record is created and no stored field mutated.  The
`Reachable` hypothesis supplies the program invariant that stored review
data parses, which the `init_if_needed` account load relies on. -/
theorem C3_validation (L : Ledger) (hR : Reachable L) (u r : Pubkey)
    (rating conf : Nat) (review : List Nat) :
    (¬(1 ≤ rating ∧ rating ≤ 5) →
      submit_review_op L u r rating review conf = (L, some .InvalidRating)) ∧
    ((1 ≤ rating ∧ rating ≤ 5) → ¬(1 ≤ conf ∧ conf ≤ 10) →
      submit_review_op L u r rating review conf = (L, some .InvalidConfidenceLevel)) := by
  obtain ⟨-, hRev⟩ := reachable_inv hR
  have main : ∀ e : ErrorCode,
      (∀ acct : Review, submit_review_core acct u r rating review conf = .error e) →
      submit_review_op L u r rating review conf = (L, some e) := by
    intro e he
    unfold submit_review_op
    cases hL : L (.reviewAddr u r) with
    | none =>
      simp only [he _]
    | some dd =>
      obtain ⟨rv, hrv⟩ := hRev u r dd hL
      simp only [hrv, he rv]
  constructor
  · intro hbad
    refine main .InvalidRating fun acct => ?_
    unfold submit_review_core
    rw [if_neg hbad]
  · intro hok hbad
    refine main .InvalidConfidenceLevel fun acct => ?_
    unfold submit_review_core
    rw [if_pos hok, if_neg hbad]

theorem C3_witness :
    (submit_review_op emptyLedger 0 1 9 [107] 5 = (emptyLedger, some .InvalidRating)) ∧
    (submit_review_op emptyLedger 0 1 3 [107] 0 =
      (emptyLedger, some .InvalidConfidenceLevel)) :=
  ⟨(C3_validation emptyLedger Reachable.empty 0 1 9 5 [107]).1 (by omega),
   (C3_validation emptyLedger Reachable.empty 0 1 3 0 [107]).2 (by omega) (by omega)⟩

/-- C6: with a valid rating and confidence level and no previously written
review (no record, or a record with `review_len = 0`), SubmitReview succeeds
and stores the given rating and confidence level, `review_len =
min (length review) 200`, and the review text truncated to 200 bytes and
zero-padded. -/
theorem C6_submit_review_ok (L : Ledger) (u r : Pubkey) (rating conf : Nat)
    (review : List Nat) (hu : u < 2 ^ 256) (hr : r < 2 ^ 256)
    (hrat : 1 ≤ rating ∧ rating ≤ 5) (hconf : 1 ≤ conf ∧ conf ≤ 10)
    (hfresh : L (.reviewAddr u r) = none ∨
      ∃ d rec, L (.reviewAddr u r) = some d ∧ deserReview d = .ok rec ∧
        rec.review_len = 0) :
    (submit_review_op L u r rating review conf).2 = none ∧
    readReview (submit_review_op L u r rating review conf).1 u r =
      some ⟨u, r, rating, min review.length 200,
        review.take (min review.length 200) ++
          List.replicate (200 - min review.length 200) 0, conf⟩ := by
  have hcore : ∀ acct : Review, acct.review_len = 0 →
      submit_review_core acct u r rating review conf =
        .ok ⟨u, r, rating, min review.length 200,
          review.take (min review.length 200) ++
            List.replicate (200 - min review.length 200) 0, conf⟩ := by
    intro acct h0
    unfold submit_review_core
    rw [if_pos hrat, if_pos hconf, if_neg (by omega)]
  have hparseback : deserReview (serReview ⟨u, r, rating, min review.length 200,
      review.take (min review.length 200) ++
        List.replicate (200 - min review.length 200) 0, conf⟩) =
      .ok ⟨u, r, rating, min review.length 200,
        review.take (min review.length 200) ++
          List.replicate (200 - min review.length 200) 0, conf⟩ :=
    deserReview_ser_nil u r rating (min review.length 200) conf _
      hu hr (by omega) (by omega) (by omega) (review_buf_length review)
  rcases hfresh with hnone | ⟨d, rec, hsome, hparse, hlen0⟩
  · unfold submit_review_op
    rw [hnone]
    simp only [hcore ⟨0, 0, 0, 0, List.replicate 200 0, 0⟩ rfl]
    refine ⟨by trivial, ?_⟩
    unfold readReview
    rw [writeAcct_same]
    simp only [Option.getD_some, hparseback]
    rfl
  · unfold submit_review_op
    rw [hsome]
    simp only [hparse, hcore rec hlen0]
    refine ⟨by trivial, ?_⟩
    unfold readReview
    rw [writeAcct_same]
    simp only [Option.getD_some, hparseback]
    rfl

theorem C6_witness :
    (submit_review_op emptyLedger 0 1 4 [111, 107] 8).2 = none ∧
    readReview (submit_review_op emptyLedger 0 1 4 [111, 107] 8).1 0 1 =
      some ⟨0, 1, 4, min ([111, 107] : List Nat).length 200,
        ([111, 107] : List Nat).take (min ([111, 107] : List Nat).length 200) ++
          List.replicate (200 - min ([111, 107] : List Nat).length 200) 0, 8⟩ :=
  C6_submit_review_ok emptyLedger 0 1 4 8 [111, 107] (by norm_num) (by norm_num)
    (by omega) (by omega) (Or.inl rfl)

/-- C10: every index produced by the step-by-2 iteration over
`0..remaining_accounts.len()` is strictly below the length, so the loop's
bounds guard (`if i >= len { continue; }`) is dead code and the indexing at
`i` is in bounds: `bookTableStep` always takes the processing branch on
these indices. -/
theorem C10_loop_bounds (L : Ledger) (aux : List Addr) (i : Nat)
    (h : i ∈ stepIndices aux.length) :
    i < aux.length ∧ bookTableStep L aux i = bookTableStepBody L aux i := by
  have hlt := stepIndices_lt aux.length i h
  refine ⟨hlt, ?_⟩
  unfold bookTableStep
  rw [if_neg (not_le.mpr hlt)]

theorem C10_witness :
    2 < ([Addr.external 0, Addr.external 1, Addr.external 2] : List Addr).length ∧
    bookTableStep emptyLedger [Addr.external 0, Addr.external 1, Addr.external 2] 2 =
      bookTableStepBody emptyLedger [Addr.external 0, Addr.external 1, Addr.external 2] 2 :=
  C10_loop_bounds emptyLedger [Addr.external 0, Addr.external 1, Addr.external 2] 2
    (by decide)

/-- C9: a `DishStats` record processed by the batch loop's read-modify-write
cycle is written back with `user`, `dish`, `name_len` and `name_data`
unchanged — only `count` changes, so the name is never re-written after
creation — and `book_table` writes the `UserStats` record back with `user`
and `restaurant` unchanged, only `visit_count` incremented. -/
theorem C9_frame (data : List Nat) (ds : DishStats)
    (hbytes : ∀ b ∈ data, b < 256) (hds : deserDishStats data = .ok ds)
    (L : Ledger) (u r : Pubkey) (ids : List Pubkey) (aux : List Addr)
    (dd : List Nat) (us : UserStats)
    (hstored : L (.userStatsAddr u r) = some dd)
    (hus : deserUserStats dd = .ok us)
    (hddbytes : ∀ b ∈ dd, b < 256) :
    (∃ data', processDish data = .ok data' ∧
      deserDishStats data' =
        .ok ⟨ds.user, ds.dish, (ds.count + 1) % 2 ^ 64, ds.name_len, ds.name_data⟩) ∧
    readUserStats (book_table_op L u r ids aux).1 u r =
      some ⟨us.user, us.restaurant, (us.visit_count + 1) % 2 ^ 64⟩ := by
  constructor
  · exact ⟨bumpData data, processDish_eq_bumpData data ds hds,
      bumpData_parse data ds hbytes hds⟩
  · obtain ⟨hub, hrb, hvb⟩ := deserUserStats_ok_bounds dd us hddbytes hus
    have hop : book_table_op L u r ids aux =
        runLoop (writeAcct L (.userStatsAddr u r)
          (serUserStats ⟨us.user, us.restaurant, (us.visit_count + 1) % 2 ^ 64⟩))
          aux (stepIndices aux.length) := by
      unfold book_table_op
      rw [hstored]
      simp only [hus]
    have hparse1 : deserUserStats ((writeAcct L (.userStatsAddr u r)
        (serUserStats ⟨us.user, us.restaurant, (us.visit_count + 1) % 2 ^ 64⟩)
        (.userStatsAddr u r)).getD []) =
        .ok ⟨us.user, us.restaurant, (us.visit_count + 1) % 2 ^ 64⟩ := by
      rw [writeAcct_same]
      simp only [Option.getD_some]
      exact deserUserStats_ser_nil _ _ _ hub hrb (Nat.mod_lt _ (by norm_num))
    rw [hop]
    unfold readUserStats
    rw [runLoop_user_frame _ _ _ _ _ hparse1, hparse1]
    rfl

theorem C9_witness :
    (∃ data', processDish (serDishStats ⟨1, 2, 0, 3, List.replicate 50 7⟩) = .ok data' ∧
      deserDishStats data' = .ok ⟨1, 2, (0 + 1) % 2 ^ 64, 3, List.replicate 50 7⟩) ∧
    readUserStats (book_table_op
      (writeAcct emptyLedger (.userStatsAddr 1 3) (serUserStats ⟨1, 3, 0⟩))
      1 3 [] []).1 1 3 = some ⟨1, 3, (0 + 1) % 2 ^ 64⟩ :=
  C9_frame (serDishStats ⟨1, 2, 0, 3, List.replicate 50 7⟩)
    ⟨1, 2, 0, 3, List.replicate 50 7⟩ (by decide)
    (deserDishStats_ser_nil 1 2 0 3 (List.replicate 50 7) (by norm_num) (by norm_num)
      (by norm_num) (by norm_num) (by simp))
    (writeAcct emptyLedger (.userStatsAddr 1 3) (serUserStats ⟨1, 3, 0⟩)) 1 3 [] []
    (serUserStats ⟨1, 3, 0⟩) ⟨1, 3, 0⟩ (by decide)
    (deserUserStats_ser_nil 1 3 0 (by norm_num) (by norm_num) (by norm_num))
    (by decide)

/-- C1 is refuted as stated: when the same DishStats account is referenced
at two even positions (0 and 2), the loop increments that one stored record
twice — the record at an even position is not incremented "by exactly 1". -/
theorem C1_counterexample :
    dishCountAt
      (writeAcct (writeAcct emptyLedger (.userStatsAddr 1 3) (serUserStats ⟨1, 3, 0⟩))
        (.dishStatsAddr 1 2) (serDishStats ⟨1, 2, 0, 0, List.replicate 50 0⟩))
      (.dishStatsAddr 1 2) = some 0 ∧
    (book_table_op
      (writeAcct (writeAcct emptyLedger (.userStatsAddr 1 3) (serUserStats ⟨1, 3, 0⟩))
        (.dishStatsAddr 1 2) (serDishStats ⟨1, 2, 0, 0, List.replicate 50 0⟩))
      1 3 [] [.dishStatsAddr 1 2, .external 9, .dishStatsAddr 1 2]).2 = none ∧
    dishCountAt (book_table_op
      (writeAcct (writeAcct emptyLedger (.userStatsAddr 1 3) (serUserStats ⟨1, 3, 0⟩))
        (.dishStatsAddr 1 2) (serDishStats ⟨1, 2, 0, 0, List.replicate 50 0⟩))
      1 3 [] [.dishStatsAddr 1 2, .external 9, .dishStatsAddr 1 2]).1
      (.dishStatsAddr 1 2) = some 2 :=
  ⟨by decide, by decide, by decide⟩

/-- C1 (amended): for a BookTable call with an existing UserStats record and
an auxiliary list whose even-position references are pairwise distinct
DishStats accounts (in particular, distinct from the user-stats account),
the call succeeds, `visit_count` is incremented by exactly 1 (mod u64), each
even-position record's `count` is incremented by exactly 1 (mod u64), every
other account — including everything referenced only at odd positions — is
untouched, and the result does not depend on the `dish_ids` argument, which
is never read. -/
theorem C1_amended (L : Ledger) (u r : Pubkey) (ids : List Pubkey) (aux : List Addr)
    (dd : List Nat) (us : UserStats)
    (hstored : L (.userStatsAddr u r) = some dd)
    (hus : deserUserStats dd = .ok us)
    (hnd : (evenAddrs aux).Nodup)
    (hsep : ∀ a ∈ evenAddrs aux, a ≠ .userStatsAddr u r)
    (hok : ∀ a ∈ evenAddrs aux, dishOk ((L a).getD []) = true) :
    (book_table_op L u r ids aux).2 = none ∧
    visitCountAt (book_table_op L u r ids aux).1 (.userStatsAddr u r) =
      some ((us.visit_count + 1) % 2 ^ 64) ∧
    (∀ a ∈ evenAddrs aux, ∀ c, dishCountAt L a = some c →
      dishCountAt (book_table_op L u r ids aux).1 a = some ((c + 1) % 2 ^ 64)) ∧
    (∀ a : Addr, a ∉ evenAddrs aux → a ≠ .userStatsAddr u r →
      (book_table_op L u r ids aux).1 a = L a) ∧
    (∀ ids' : List Pubkey, book_table_op L u r ids' aux = book_table_op L u r ids aux) := by
  have hop : ∀ ids0 : List Pubkey, book_table_op L u r ids0 aux =
      runLoop (writeAcct L (.userStatsAddr u r)
        (serUserStats ⟨us.user, us.restaurant, (us.visit_count + 1) % 2 ^ 64⟩))
        aux (stepIndices aux.length) := by
    intro ids0
    unfold book_table_op
    rw [hstored]
    simp only [hus]
  have hL1at : ∀ a ∈ evenAddrs aux,
      writeAcct L (.userStatsAddr u r)
        (serUserStats ⟨us.user, us.restaurant, (us.visit_count + 1) % 2 ^ 64⟩) a = L a :=
    fun a ha => writeAcct_other _ _ _ _ (hsep a ha)
  have hok1 : ∀ i ∈ stepIndices aux.length,
      dishOk (((writeAcct L (.userStatsAddr u r)
        (serUserStats ⟨us.user, us.restaurant, (us.visit_count + 1) % 2 ^ 64⟩))
        (idxAddr aux i)).getD []) = true := by
    intro i hi
    rw [hL1at _ (List.mem_map_of_mem _ hi)]
    exact hok _ (List.mem_map_of_mem _ hi)
  obtain ⟨he, hset, hframe⟩ := runLoop_all_ok aux (stepIndices aux.length)
    (writeAcct L (.userStatsAddr u r)
      (serUserStats ⟨us.user, us.restaurant, (us.visit_count + 1) % 2 ^ 64⟩))
    hnd (fun i hi => stepIndices_lt _ _ hi) hok1
  have husnotin : (Addr.userStatsAddr u r) ∉ (stepIndices aux.length).map (idxAddr aux) :=
    fun hmem => hsep _ hmem rfl
  refine ⟨by rw [hop ids]; exact he, ?_, ?_, ?_, fun ids' => by rw [hop ids', hop ids]⟩
  · rw [hop ids]
    unfold visitCountAt
    rw [hframe _ husnotin, writeAcct_same]
    simp only [Option.getD_some]
    rw [deserUserStats_ser_mod_nil]
    simp only [Except.toOption, Option.map_some']
    congr 1
    omega
  · intro a ha c hc
    rw [hop ids]
    obtain ⟨i, hi, rfl⟩ := List.mem_map.mp ha
    unfold dishCountAt
    rw [hset i hi]
    simp only [Option.getD_some]
    rw [hL1at _ (List.mem_map_of_mem _ hi)]
    obtain ⟨ds, hds, rfl⟩ := dishCountAt_inv L _ c hc
    exact bumpData_count _ ds hds
  · intro a ha hne
    rw [hop ids, hframe a ha, writeAcct_other _ _ _ _ hne]

theorem C1_witness :
    (book_table_op
      (writeAcct (writeAcct emptyLedger (.userStatsAddr 1 3) (serUserStats ⟨1, 3, 0⟩))
        (.dishStatsAddr 1 2) (serDishStats ⟨1, 2, 0, 0, List.replicate 50 0⟩))
      1 3 [] [.dishStatsAddr 1 2, .external 9]).2 = none ∧
    visitCountAt (book_table_op
      (writeAcct (writeAcct emptyLedger (.userStatsAddr 1 3) (serUserStats ⟨1, 3, 0⟩))
        (.dishStatsAddr 1 2) (serDishStats ⟨1, 2, 0, 0, List.replicate 50 0⟩))
      1 3 [] [.dishStatsAddr 1 2, .external 9]).1 (.userStatsAddr 1 3) =
      some ((0 + 1) % 2 ^ 64) ∧
    (∀ a ∈ evenAddrs [Addr.dishStatsAddr 1 2, Addr.external 9], ∀ c,
      dishCountAt (writeAcct (writeAcct emptyLedger (.userStatsAddr 1 3)
          (serUserStats ⟨1, 3, 0⟩))
        (.dishStatsAddr 1 2) (serDishStats ⟨1, 2, 0, 0, List.replicate 50 0⟩)) a = some c →
      dishCountAt (book_table_op
        (writeAcct (writeAcct emptyLedger (.userStatsAddr 1 3) (serUserStats ⟨1, 3, 0⟩))
          (.dishStatsAddr 1 2) (serDishStats ⟨1, 2, 0, 0, List.replicate 50 0⟩))
        1 3 [] [.dishStatsAddr 1 2, .external 9]).1 a = some ((c + 1) % 2 ^ 64)) ∧
    (∀ a : Addr, a ∉ evenAddrs [Addr.dishStatsAddr 1 2, Addr.external 9] →
      a ≠ .userStatsAddr 1 3 →
      (book_table_op
        (writeAcct (writeAcct emptyLedger (.userStatsAddr 1 3) (serUserStats ⟨1, 3, 0⟩))
          (.dishStatsAddr 1 2) (serDishStats ⟨1, 2, 0, 0, List.replicate 50 0⟩))
        1 3 [] [.dishStatsAddr 1 2, .external 9]).1 a =
      (writeAcct (writeAcct emptyLedger (.userStatsAddr 1 3) (serUserStats ⟨1, 3, 0⟩))
        (.dishStatsAddr 1 2) (serDishStats ⟨1, 2, 0, 0, List.replicate 50 0⟩)) a) ∧
    (∀ ids' : List Pubkey,
      book_table_op
        (writeAcct (writeAcct emptyLedger (.userStatsAddr 1 3) (serUserStats ⟨1, 3, 0⟩))
          (.dishStatsAddr 1 2) (serDishStats ⟨1, 2, 0, 0, List.replicate 50 0⟩))
        1 3 ids' [.dishStatsAddr 1 2, .external 9] =
      book_table_op
        (writeAcct (writeAcct emptyLedger (.userStatsAddr 1 3) (serUserStats ⟨1, 3, 0⟩))
          (.dishStatsAddr 1 2) (serDishStats ⟨1, 2, 0, 0, List.replicate 50 0⟩))
        1 3 [] [.dishStatsAddr 1 2, .external 9]) :=
  C1_amended
    (writeAcct (writeAcct emptyLedger (.userStatsAddr 1 3) (serUserStats ⟨1, 3, 0⟩))
      (.dishStatsAddr 1 2) (serDishStats ⟨1, 2, 0, 0, List.replicate 50 0⟩))
    1 3 [] [.dishStatsAddr 1 2, .external 9]
    (serUserStats ⟨1, 3, 0⟩) ⟨1, 3, 0⟩ (by decide)
    (deserUserStats_ser_nil 1 3 0 (by norm_num) (by norm_num) (by norm_num))
    (by decide) (by decide) (by decide)

/-- C8 is refuted as stated: the loop fails at even index 2 (the account
there holds no data), yet the record referenced at even index 4 is not
unchanged — it is the same account as the one bumped at index 0, so its
count moved from 0 to 1 although index 4 comes after the failure point. -/
theorem C8_counterexample :
    (book_table_op
      (writeAcct (writeAcct emptyLedger (.userStatsAddr 1 3) (serUserStats ⟨1, 3, 0⟩))
        (.dishStatsAddr 1 2) (serDishStats ⟨1, 2, 0, 0, List.replicate 50 0⟩))
      1 3 [] [.dishStatsAddr 1 2, .external 9, .external 7, .external 9,
        .dishStatsAddr 1 2]).2 = some .AccountDiscriminatorNotFound ∧
    idxAddr [Addr.dishStatsAddr 1 2, Addr.external 9, Addr.external 7, Addr.external 9,
      Addr.dishStatsAddr 1 2] 4 = Addr.dishStatsAddr 1 2 ∧
    dishCountAt
      (writeAcct (writeAcct emptyLedger (.userStatsAddr 1 3) (serUserStats ⟨1, 3, 0⟩))
        (.dishStatsAddr 1 2) (serDishStats ⟨1, 2, 0, 0, List.replicate 50 0⟩))
      (.dishStatsAddr 1 2) = some 0 ∧
    dishCountAt (book_table_op
      (writeAcct (writeAcct emptyLedger (.userStatsAddr 1 3) (serUserStats ⟨1, 3, 0⟩))
        (.dishStatsAddr 1 2) (serDishStats ⟨1, 2, 0, 0, List.replicate 50 0⟩))
      1 3 [] [.dishStatsAddr 1 2, .external 9, .external 7, .external 9,
        .dishStatsAddr 1 2]).1 (.dishStatsAddr 1 2) = some 1 :=
  ⟨by decide, by decide, by decide, by decide⟩

/-- C8 (amended): when the batch loop fails at even index `k` (the account
referenced there does not deserialize as `DishStats`) and the even-position
references are pairwise distinct DishStats accounts other than the
user-stats account, the instruction surfaces that error, the `visit_count`
increment and the count increments at even indices before `k` stay
committed, and the accounts referenced at even indices at and after `k` are
unchanged (best-effort, not all-or-nothing). -/
theorem C8_amended (L : Ledger) (u r : Pubkey) (ids : List Pubkey) (aux : List Addr)
    (dd : List Nat) (us : UserStats) (k : Nat) (e : ErrorCode)
    (hstored : L (.userStatsAddr u r) = some dd)
    (hus : deserUserStats dd = .ok us)
    (hk : k ∈ stepIndices aux.length)
    (hnd : (evenAddrs aux).Nodup)
    (hsep : ∀ a ∈ evenAddrs aux, a ≠ .userStatsAddr u r)
    (hokpre : ∀ i ∈ stepIndices k, dishOk ((L (idxAddr aux i)).getD []) = true)
    (hfail : deserDishStats ((L (idxAddr aux k)).getD []) = .error e) :
    (book_table_op L u r ids aux).2 = some e ∧
    visitCountAt (book_table_op L u r ids aux).1 (.userStatsAddr u r) =
      some ((us.visit_count + 1) % 2 ^ 64) ∧
    (∀ i ∈ stepIndices k, ∀ c, dishCountAt L (idxAddr aux i) = some c →
      dishCountAt (book_table_op L u r ids aux).1 (idxAddr aux i) =
        some ((c + 1) % 2 ^ 64)) ∧
    (∀ i ∈ stepIndices aux.length, k ≤ i →
      (book_table_op L u r ids aux).1 (idxAddr aux i) = L (idxAddr aux i)) := by
  obtain ⟨hklen, hkev⟩ := (stepIndices_mem _ _).mp hk
  obtain ⟨post, hdecomp, hpost⟩ := stepIndices_decomp aux.length k hklen hkev
  set L1 := writeAcct L (.userStatsAddr u r)
    (serUserStats ⟨us.user, us.restaurant, (us.visit_count + 1) % 2 ^ 64⟩) with hL1def
  have hop : book_table_op L u r ids aux = runLoop L1 aux (stepIndices aux.length) := by
    unfold book_table_op
    rw [hstored]
    simp only [hus]
  have hpre_sub : ∀ i ∈ stepIndices k, i ∈ stepIndices aux.length := by
    intro i hi
    rw [hdecomp]
    exact List.mem_append.mpr (Or.inl hi)
  have hL1at : ∀ i ∈ stepIndices aux.length, L1 (idxAddr aux i) = L (idxAddr aux i) :=
    fun i hi => writeAcct_other _ _ _ _ (hsep _ (List.mem_map_of_mem _ hi))
  have hnd' := hnd
  rw [show evenAddrs aux = (stepIndices aux.length).map (idxAddr aux) from rfl, hdecomp,
      List.map_append, List.map_cons] at hnd'
  obtain ⟨hnd_pre, -, hdisj⟩ := List.nodup_append.mp hnd'
  have hok1 : ∀ i ∈ stepIndices k, dishOk ((L1 (idxAddr aux i)).getD []) = true := by
    intro i hi
    rw [hL1at i (hpre_sub i hi)]
    exact hokpre i hi
  obtain ⟨hpre_none, hpre_set, hpre_frame⟩ := runLoop_all_ok aux (stepIndices k) L1
    hnd_pre (fun i hi => lt_trans (stepIndices_lt _ _ hi) hklen) hok1
  have hsplit : runLoop L1 aux (stepIndices aux.length)
      = runLoop (runLoop L1 aux (stepIndices k)).1 aux (k :: post) := by
    rw [hdecomp, runLoop_append]
    rcases hrun : runLoop L1 aux (stepIndices k) with ⟨L2, e2⟩
    have he2 : e2 = none := by rw [hrun] at hpre_none; exact hpre_none
    subst he2
    rfl
  have haddrk_notin : idxAddr aux k ∉ (stepIndices k).map (idxAddr aux) :=
    fun hmem => hdisj hmem (List.mem_cons_self _ _)
  have hL2k : (runLoop L1 aux (stepIndices k)).1 (idxAddr aux k) = L (idxAddr aux k) := by
    rw [hpre_frame _ haddrk_notin, hL1at k hk]
  have hstepk : bookTableStep (runLoop L1 aux (stepIndices k)).1 aux k
      = ((runLoop L1 aux (stepIndices k)).1, some e) := by
    unfold bookTableStep
    rw [if_neg (not_le.mpr hklen)]
    unfold bookTableStepBody
    rw [hL2k, processDish_err_of_deser_err _ _ hfail]
  have hfinal : runLoop L1 aux (stepIndices aux.length)
      = ((runLoop L1 aux (stepIndices k)).1, some e) := by
    rw [hsplit]
    simp only [runLoop, hstepk]
  have husnotin : (Addr.userStatsAddr u r) ∉ (stepIndices k).map (idxAddr aux) := by
    intro hmem
    obtain ⟨i, hi, heq⟩ := List.mem_map.mp hmem
    exact hsep _ (List.mem_map_of_mem _ (hpre_sub i hi)) heq
  refine ⟨by rw [hop, hfinal], ?_, ?_, ?_⟩
  · rw [hop, hfinal]
    unfold visitCountAt
    simp only []
    rw [hpre_frame _ husnotin, hL1def, writeAcct_same]
    simp only [Option.getD_some]
    rw [deserUserStats_ser_mod_nil]
    simp only [Except.toOption, Option.map_some']
    congr 1
    omega
  · intro i hi c hc
    rw [hop, hfinal]
    unfold dishCountAt
    simp only []
    rw [hpre_set i hi]
    simp only [Option.getD_some]
    rw [hL1at i (hpre_sub i hi)]
    obtain ⟨ds, hds, rfl⟩ := dishCountAt_inv L _ c hc
    exact bumpData_count _ ds hds
  · intro i hi hki
    rw [hop, hfinal]
    simp only []
    have hi' : i ∈ (k :: post) := by
      rw [hdecomp] at hi
      rcases List.mem_append.mp hi with hpre | hrest
      · exact absurd ((stepIndices_mem _ _).mp hpre).1 (by omega)
      · exact hrest
    have hnotpre : idxAddr aux i ∉ (stepIndices k).map (idxAddr aux) := by
      intro hmem
      refine hdisj hmem ?_
      rcases List.mem_cons.mp hi' with rfl | hp
      · exact List.mem_cons_self _ _
      · exact List.mem_cons_of_mem _ (List.mem_map_of_mem _ hp)
    rw [hpre_frame _ hnotpre, hL1at i hi]

theorem C8_witness :
    (book_table_op
      (writeAcct (writeAcct emptyLedger (.userStatsAddr 1 3) (serUserStats ⟨1, 3, 0⟩))
        (.dishStatsAddr 1 2) (serDishStats ⟨1, 2, 0, 0, List.replicate 50 0⟩))
      1 3 [] [.dishStatsAddr 1 2, .external 9, .external 7]).2 =
        some .AccountDiscriminatorNotFound ∧
    visitCountAt (book_table_op
      (writeAcct (writeAcct emptyLedger (.userStatsAddr 1 3) (serUserStats ⟨1, 3, 0⟩))
        (.dishStatsAddr 1 2) (serDishStats ⟨1, 2, 0, 0, List.replicate 50 0⟩))
      1 3 [] [.dishStatsAddr 1 2, .external 9, .external 7]).1 (.userStatsAddr 1 3) =
      some ((0 + 1) % 2 ^ 64) ∧
    (∀ i ∈ stepIndices 2, ∀ c,
      dishCountAt (writeAcct (writeAcct emptyLedger (.userStatsAddr 1 3)
          (serUserStats ⟨1, 3, 0⟩))
        (.dishStatsAddr 1 2) (serDishStats ⟨1, 2, 0, 0, List.replicate 50 0⟩))
        (idxAddr [Addr.dishStatsAddr 1 2, Addr.external 9, Addr.external 7] i) = some c →
      dishCountAt (book_table_op
        (writeAcct (writeAcct emptyLedger (.userStatsAddr 1 3) (serUserStats ⟨1, 3, 0⟩))
          (.dishStatsAddr 1 2) (serDishStats ⟨1, 2, 0, 0, List.replicate 50 0⟩))
        1 3 [] [.dishStatsAddr 1 2, .external 9, .external 7]).1
        (idxAddr [Addr.dishStatsAddr 1 2, Addr.external 9, Addr.external 7] i) =
        some ((c + 1) % 2 ^ 64)) ∧
    (∀ i ∈ stepIndices ([Addr.dishStatsAddr 1 2, Addr.external 9,
        Addr.external 7] : List Addr).length, 2 ≤ i →
      (book_table_op
        (writeAcct (writeAcct emptyLedger (.userStatsAddr 1 3) (serUserStats ⟨1, 3, 0⟩))
          (.dishStatsAddr 1 2) (serDishStats ⟨1, 2, 0, 0, List.replicate 50 0⟩))
        1 3 [] [.dishStatsAddr 1 2, .external 9, .external 7]).1
        (idxAddr [Addr.dishStatsAddr 1 2, Addr.external 9, Addr.external 7] i) =
      (writeAcct (writeAcct emptyLedger (.userStatsAddr 1 3) (serUserStats ⟨1, 3, 0⟩))
        (.dishStatsAddr 1 2) (serDishStats ⟨1, 2, 0, 0, List.replicate 50 0⟩))
        (idxAddr [Addr.dishStatsAddr 1 2, Addr.external 9, Addr.external 7] i)) :=
  C8_amended
    (writeAcct (writeAcct emptyLedger (.userStatsAddr 1 3) (serUserStats ⟨1, 3, 0⟩))
      (.dishStatsAddr 1 2) (serDishStats ⟨1, 2, 0, 0, List.replicate 50 0⟩))
    1 3 [] [.dishStatsAddr 1 2, .external 9, .external 7]
    (serUserStats ⟨1, 3, 0⟩) ⟨1, 3, 0⟩ 2 .AccountDiscriminatorNotFound
    (by decide)
    (deserUserStats_ser_nil 1 3 0 (by norm_num) (by norm_num) (by norm_num))
    (by decide) (by decide) (by decide) (by decide) (by decide)

theorem visitTrace_stored (n : Nat) :
    visitTrace n (.userStatsAddr 0 0) = some (serUserStats ⟨0, 0, n % 2 ^ 64⟩) := by
  induction n with
  | zero => decide
  | succ n ih =>
    show (book_table_op (visitTrace n) 0 0 [] []).1 (.userStatsAddr 0 0) = _
    unfold book_table_op
    rw [ih]
    simp only [deserUserStats_ser_mod_nil, stepIndices_zero, runLoop]
    rw [writeAcct_same]
    have hrec : (⟨0 % 2 ^ 256, 0 % 2 ^ 256, (n % 2 ^ 64 % 2 ^ 64 + 1) % 2 ^ 64⟩ : UserStats)
        = ⟨0, 0, (n + 1) % 2 ^ 64⟩ := by
      simp only [UserStats.mk.injEq]
      refine ⟨Nat.zero_mod _, Nat.zero_mod _, by omega⟩
    rw [hrec]

theorem visitTrace_succ (n : Nat) :
    (book_table_op (visitTrace n) 0 0 [] []).1 = visitTrace (n + 1) := rfl

theorem visitTrace_reachable (n : Nat) : Reachable (visitTrace n) := by
  induction n with
  | zero =>
    exact Reachable.step (.initUser 0 0) ⟨by norm_num, by norm_num⟩ Reachable.empty
  | succ n ih =>
    exact Reachable.step (.bookTable 0 0 [] []) ⟨by norm_num, by norm_num⟩ ih

theorem applyOp_bookTable (L : Ledger) (u r : Pubkey) (ids : List Pubkey)
    (aux : List Addr) :
    applyOp L (.bookTable u r ids aux) = book_table_op L u r ids aux := rfl

/-- C7 is refuted as stated: in a reachable state the `visit_count` of a
stored UserStats record is the u64 maximum `2 ^ 64 - 1`, and one further
BookTable call wraps it around to 0 — a strict decrease of a stored counter
across an operation. -/
theorem C7_counterexample :
    Reachable (visitTrace (2 ^ 64 - 1)) ∧
    visitCountAt (visitTrace (2 ^ 64 - 1)) (.userStatsAddr 0 0) = some (2 ^ 64 - 1) ∧
    visitCountAt (applyOp (visitTrace (2 ^ 64 - 1)) (.bookTable 0 0 [] [])).1
      (.userStatsAddr 0 0) = some 0 ∧
    (0 : Nat) < 2 ^ 64 - 1 := by
  refine ⟨visitTrace_reachable _, ?_, ?_, by norm_num⟩
  · unfold visitCountAt
    rw [visitTrace_stored]
    simp only [Option.getD_some]
    rw [deserUserStats_ser_mod_nil]
    simp only [Except.toOption, Option.map_some']
    congr 1
  · rw [applyOp_bookTable, visitTrace_succ]
    unfold visitCountAt
    rw [visitTrace_stored]
    simp only [Option.getD_some]
    rw [deserUserStats_ser_mod_nil]
    simp only [Except.toOption, Option.map_some']
    congr 1

/-- C7 (amended): across every instruction applied in a reachable state,
each stored counter — `visit_count` where the account parses as `UserStats`,
`count` where it parses as `DishStats` — moves from `c` to
`(c + k) % 2 ^ 64` for some number of applied increments `k ≤ opBound`
(0 for the non-batch instructions, at most `1 + length aux` for BookTable);
in particular a stored counter never decreases except when an increment
wraps past the u64 maximum. -/
theorem C7_amended (L : Ledger) (hR : Reachable L) (op : Op) (hwf : OpWF op) (a : Addr) :
    (∀ c, visitCountAt L a = some c →
      ∃ k, k ≤ opBound op ∧
        visitCountAt (applyOp L op).1 a = some ((c + k) % 2 ^ 64) ∧
        ((c + k) % 2 ^ 64 < c → 2 ^ 64 ≤ c + k)) ∧
    (∀ c, dishCountAt L a = some c →
      ∃ k, k ≤ opBound op ∧
        dishCountAt (applyOp L op).1 a = some ((c + k) % 2 ^ 64) ∧
        ((c + k) % 2 ^ 64 < c → 2 ^ 64 ≤ c + k)) := by
  obtain ⟨hB, hRev⟩ := reachable_inv hR
  have stay_v : ∀ c, visitCountAt L a = some c →
      ∃ k, k ≤ opBound op ∧ visitCountAt L a = some ((c + k) % 2 ^ 64) ∧
        ((c + k) % 2 ^ 64 < c → 2 ^ 64 ≤ c + k) := by
    intro c hc
    have hcM := visitCountAt_lt L hB a c hc
    refine ⟨0, Nat.zero_le _, ?_, ?_⟩
    · rw [Nat.add_zero, Nat.mod_eq_of_lt hcM]
      exact hc
    · rw [Nat.add_zero, Nat.mod_eq_of_lt hcM]
      omega
  have stay_d : ∀ c, dishCountAt L a = some c →
      ∃ k, k ≤ opBound op ∧ dishCountAt L a = some ((c + k) % 2 ^ 64) ∧
        ((c + k) % 2 ^ 64 < c → 2 ^ 64 ≤ c + k) := by
    intro c hc
    have hcM := dishCountAt_lt L hB a c hc
    refine ⟨0, Nat.zero_le _, ?_, ?_⟩
    · rw [Nat.add_zero, Nat.mod_eq_of_lt hcM]
      exact hc
    · rw [Nat.add_zero, Nat.mod_eq_of_lt hcM]
      omega
  have frame_v : ∀ L' : Ledger, L' a = L a → ∀ c, visitCountAt L a = some c →
      ∃ k, k ≤ opBound op ∧ visitCountAt L' a = some ((c + k) % 2 ^ 64) ∧
        ((c + k) % 2 ^ 64 < c → 2 ^ 64 ≤ c + k) := by
    intro L' hLa c hc
    obtain ⟨k, hk, h1, h2⟩ := stay_v c hc
    refine ⟨k, hk, ?_, h2⟩
    unfold visitCountAt at h1 ⊢
    rw [hLa]
    exact h1
  have frame_d : ∀ L' : Ledger, L' a = L a → ∀ c, dishCountAt L a = some c →
      ∃ k, k ≤ opBound op ∧ dishCountAt L' a = some ((c + k) % 2 ^ 64) ∧
        ((c + k) % 2 ^ 64 < c → 2 ^ 64 ≤ c + k) := by
    intro L' hLa c hc
    obtain ⟨k, hk, h1, h2⟩ := stay_d c hc
    refine ⟨k, hk, ?_, h2⟩
    unfold dishCountAt at h1 ⊢
    rw [hLa]
    exact h1
  have none_no_visit : ∀ a' : Addr, L a' = none → ∀ c,
      visitCountAt L a' = some c → False := by
    intro a' hnone c hc
    unfold visitCountAt at hc
    rw [hnone] at hc
    simp [deserUserStats, Except.toOption] at hc
  have none_no_dish : ∀ a' : Addr, L a' = none → ∀ c,
      dishCountAt L a' = some c → False := by
    intro a' hnone c hc
    unfold dishCountAt at hc
    rw [hnone] at hc
    simp [deserDishStats, Except.toOption] at hc
  cases op with
  | initUser u r =>
    simp only [applyOp, init_user_stats_op]
    cases hL : L (.userStatsAddr u r) with
    | some d =>
      simp only []
      exact ⟨stay_v, stay_d⟩
    | none =>
      simp only []
      constructor
      · intro c hc
        by_cases ha : a = Addr.userStatsAddr u r
        · exact (none_no_visit a (by rw [ha]; exact hL) c hc).elim
        · exact frame_v _ (writeAcct_other _ _ _ _ ha) c hc
      · intro c hc
        by_cases ha : a = Addr.userStatsAddr u r
        · exact (none_no_dish a (by rw [ha]; exact hL) c hc).elim
        · exact frame_d _ (writeAcct_other _ _ _ _ ha) c hc
  | initDish u dk name =>
    simp only [applyOp, init_dish_stats_op]
    cases hL : L (.dishStatsAddr u dk) with
    | some d =>
      simp only []
      exact ⟨stay_v, stay_d⟩
    | none =>
      simp only []
      constructor
      · intro c hc
        by_cases ha : a = Addr.dishStatsAddr u dk
        · exact (none_no_visit a (by rw [ha]; exact hL) c hc).elim
        · exact frame_v _ (writeAcct_other _ _ _ _ ha) c hc
      · intro c hc
        by_cases ha : a = Addr.dishStatsAddr u dk
        · exact (none_no_dish a (by rw [ha]; exact hL) c hc).elim
        · exact frame_d _ (writeAcct_other _ _ _ _ ha) c hc
  | submitReview u r rating review conf =>
    simp only [applyOp, submit_review_op]
    cases hL : L (.reviewAddr u r) with
    | none =>
      simp only []
      cases hcore : submit_review_core ⟨0, 0, 0, 0, List.replicate 200 0, 0⟩ u r rating
          review conf with
      | error e =>
        simp only []
        exact ⟨stay_v, stay_d⟩
      | ok r' =>
        simp only []
        constructor
        · intro c hc
          by_cases ha : a = Addr.reviewAddr u r
          · exact (none_no_visit a (by rw [ha]; exact hL) c hc).elim
          · exact frame_v _ (writeAcct_other _ _ _ _ ha) c hc
        · intro c hc
          by_cases ha : a = Addr.reviewAddr u r
          · exact (none_no_dish a (by rw [ha]; exact hL) c hc).elim
          · exact frame_d _ (writeAcct_other _ _ _ _ ha) c hc
    | some d =>
      simp only []
      cases hdes : deserReview d with
      | error e =>
        simp only []
        exact ⟨stay_v, stay_d⟩
      | ok acct =>
        simp only []
        cases hcore : submit_review_core acct u r rating review conf with
        | error e =>
          simp only []
          exact ⟨stay_v, stay_d⟩
        | ok r' =>
          simp only []
          constructor
          · intro c hc
            by_cases ha : a = Addr.reviewAddr u r
            · exfalso
              obtain ⟨us', hus', -⟩ := visitCountAt_inv L a c hc
              rw [ha, hL] at hus'
              simp only [Option.getD_some] at hus'
              rw [user_err_of_review d acct hdes] at hus'
              cases hus'
            · exact frame_v _ (writeAcct_other _ _ _ _ ha) c hc
          · intro c hc
            by_cases ha : a = Addr.reviewAddr u r
            · exfalso
              obtain ⟨ds', hds', -⟩ := dishCountAt_inv L a c hc
              rw [ha, hL] at hds'
              simp only [Option.getD_some] at hds'
              rw [dish_err_of_review d acct hdes] at hds'
              cases hds'
            · exact frame_d _ (writeAcct_other _ _ _ _ ha) c hc
  | bookTable u r ids aux =>
    simp only [applyOp, book_table_op]
    cases hL : L (.userStatsAddr u r) with
    | none =>
      simp only []
      exact ⟨stay_v, stay_d⟩
    | some d =>
      simp only []
      cases hdes : deserUserStats d with
      | error e =>
        simp only []
        exact ⟨stay_v, stay_d⟩
      | ok us =>
        simp only []
        have hB1 : ByteLedger (writeAcct L (.userStatsAddr u r)
            (serUserStats { us with visit_count := (us.visit_count + 1) % 2 ^ 64 })) :=
          byteLedger_write _ _ _ hB (serUserStats_bytes _)
        constructor
        · intro c hc
          by_cases ha : a = Addr.userStatsAddr u r
          · obtain ⟨us', hus', hvc⟩ := visitCountAt_inv L a c hc
            rw [ha, hL] at hus'
            simp only [Option.getD_some] at hus'
            rw [hdes] at hus'
            injection hus' with hus'
            subst hus'
            have hparse1 : deserUserStats ((writeAcct L (.userStatsAddr u r)
                (serUserStats { us with visit_count := (us.visit_count + 1) % 2 ^ 64 })
                a).getD []) =
                .ok ⟨us.user % 2 ^ 256, us.restaurant % 2 ^ 256,
                  (us.visit_count + 1) % 2 ^ 64 % 2 ^ 64⟩ := by
              rw [ha, writeAcct_same]
              simp only [Option.getD_some]
              exact deserUserStats_ser_mod_nil us.user us.restaurant
                ((us.visit_count + 1) % 2 ^ 64)
            have hframe := runLoop_user_frame aux (stepIndices aux.length) _ a _ hparse1
            have hcb := (deserUserStats_ok_bounds d us (hB _ d hL) hdes).2.2
            refine ⟨1, by simp [opBound], ?_, by omega⟩
            unfold visitCountAt
            rw [hframe, hparse1]
            simp only [Except.toOption, Option.map_some']
            congr 1
            omega
          · obtain ⟨us', hus', -⟩ := visitCountAt_inv L a c hc
            have hL1a : writeAcct L (.userStatsAddr u r)
                (serUserStats { us with visit_count := (us.visit_count + 1) % 2 ^ 64 }) a
                = L a := writeAcct_other _ _ _ _ ha
            have hparse1 : deserUserStats ((writeAcct L (.userStatsAddr u r)
                (serUserStats { us with visit_count := (us.visit_count + 1) % 2 ^ 64 })
                a).getD []) = .ok us' := by
              rw [hL1a]
              exact hus'
            have hframe := runLoop_user_frame aux (stepIndices aux.length) _ a us' hparse1
            exact frame_v _ (hframe.trans hL1a) c hc
        · intro c hc
          by_cases ha : a = Addr.userStatsAddr u r
          · exfalso
            obtain ⟨ds', hds', -⟩ := dishCountAt_inv L a c hc
            rw [ha, hL] at hds'
            simp only [Option.getD_some] at hds'
            rw [dish_err_of_user d us hdes] at hds'
            cases hds'
          · have hL1a : writeAcct L (.userStatsAddr u r)
                (serUserStats { us with visit_count := (us.visit_count + 1) % 2 ^ 64 }) a
                = L a := writeAcct_other _ _ _ _ ha
            have hc1 : dishCountAt (writeAcct L (.userStatsAddr u r)
                (serUserStats { us with visit_count := (us.visit_count + 1) % 2 ^ 64 })) a
                = some c := by
              unfold dishCountAt at hc ⊢
              rw [hL1a]
              exact hc
            have hcM : c < 2 ^ 64 := dishCountAt_lt L hB a c hc
            obtain ⟨k, hk, hres⟩ := runLoop_dish_count aux (stepIndices aux.length) _ a
              hB1 c hc1 hcM
            refine ⟨k, ?_, hres, ?_⟩
            · simp only [opBound]
              calc k ≤ (stepIndices aux.length).length := hk
                _ ≤ aux.length := stepIndices_length_le _
                _ ≤ aux.length + 1 := Nat.le_succ _
            · intro hlt
              by_contra hcon
              push_neg at hcon
              rw [Nat.mod_eq_of_lt (by omega)] at hlt
              omega

theorem C7_witness :
    (∀ c, visitCountAt (visitTrace 0) (.userStatsAddr 0 0) = some c →
      ∃ k, k ≤ opBound (.bookTable 0 0 [] []) ∧
        visitCountAt (applyOp (visitTrace 0) (.bookTable 0 0 [] [])).1
          (.userStatsAddr 0 0) = some ((c + k) % 2 ^ 64) ∧
        ((c + k) % 2 ^ 64 < c → 2 ^ 64 ≤ c + k)) ∧
    (∀ c, dishCountAt (visitTrace 0) (.userStatsAddr 0 0) = some c →
      ∃ k, k ≤ opBound (.bookTable 0 0 [] []) ∧
        dishCountAt (applyOp (visitTrace 0) (.bookTable 0 0 [] [])).1
          (.userStatsAddr 0 0) = some ((c + k) % 2 ^ 64) ∧
        ((c + k) % 2 ^ 64 < c → 2 ^ 64 ≤ c + k)) :=
  C7_amended (visitTrace 0) (visitTrace_reachable 0) (.bookTable 0 0 [] [])
    ⟨by norm_num, by norm_num⟩ (.userStatsAddr 0 0)

end RestaurantBooking
